import Mathlib

/-!
Verification of the named-axis tensor `Space` abstraction (`cpu/space.py`)
and the minibatch data providers (`cpu/optimize/data_provider.py`).

Arrays are modelled as a C-order (row-major) flat list of elements together
with a shape; `ravel`/`unravel` convert between a flat offset and a
multi-index, exactly as numpy lays out data in memory.  `OrderedDict` is
modelled as an association list in insertion order.  Python leaf axis
labels are single-character strings; Python's `list(ax)` turns a bare
string label into the singleton list of itself and a grouped axis (a list
of labels) into itself, so an axis entry is modelled uniformly as a
`List Label` (a bare leaf is a singleton group).
-/

namespace TxtNets

abbrev Label := String

/-- Product of a list of dimension extents (`np.prod`, which is `1` on `[]`). -/
def prodl (l : List Nat) : Nat := l.foldr (· * ·) 1

@[simp] theorem prodl_nil : prodl [] = 1 := rfl

@[simp] theorem prodl_cons (s : Nat) (ss : List Nat) :
    prodl (s :: ss) = s * prodl ss := rfl

theorem prodl_append (s t : List Nat) :
    prodl (s ++ t) = prodl s * prodl t := by
  induction s with
  | nil => simp
  | cons a ss ih => simp [ih, Nat.mul_assoc]

/-- Flat C-order offset of a multi-index `idx` in an array of shape `s`
(row-major: the last dimension varies fastest). -/
def ravel : List Nat → List Nat → Nat
  | _ :: ss, i :: is => i * prodl ss + ravel ss is
  | _, _ => 0

/-- Multi-index of flat C-order offset `j` in an array of shape `s`. -/
def unravel : List Nat → Nat → List Nat
  | [], _ => []
  | _ :: ss, j => j / prodl ss :: unravel ss (j % prodl ss)

@[simp] theorem unravel_length (s : List Nat) (j : Nat) :
    (unravel s j).length = s.length := by
  induction s generalizing j with
  | nil => rfl
  | cons a ss ih => simp [unravel, ih]

theorem ravel_lt {s idx : List Nat} (h : List.Forall₂ (· < ·) idx s) :
    ravel s idx < prodl s := by
  induction h with
  | nil => simp [ravel]
  | @cons i a is ss hia _ ih =>
    calc i * prodl ss + ravel ss is
        < i * prodl ss + prodl ss := Nat.add_lt_add_left ih _
      _ = (i + 1) * prodl ss := by ring
      _ ≤ a * prodl ss := Nat.mul_le_mul_right _ hia
      _ = prodl (a :: ss) := rfl

theorem unravel_forall₂ {s : List Nat} {j : Nat} (h : j < prodl s) :
    List.Forall₂ (· < ·) (unravel s j) s := by
  induction s generalizing j with
  | nil => exact List.Forall₂.nil
  | cons a ss ih =>
    have hpos : 0 < prodl ss := by
      rcases Nat.eq_zero_or_pos (prodl ss) with h0 | h0
      · simp [prodl_cons, h0] at h
      · exact h0
    refine List.Forall₂.cons ?_ (ih (Nat.mod_lt _ hpos))
    exact (Nat.div_lt_iff_lt_mul hpos).mpr (by simpa [Nat.mul_comm] using h)

theorem ravel_unravel {s : List Nat} {j : Nat} (h : j < prodl s) :
    ravel s (unravel s j) = j := by
  induction s generalizing j with
  | nil => simp [prodl] at h; simp [ravel, unravel, h]
  | cons a ss ih =>
    have hpos : 0 < prodl ss := by
      rcases Nat.eq_zero_or_pos (prodl ss) with h0 | h0
      · simp [prodl_cons, h0] at h
      · exact h0
    simp only [unravel, ravel]
    rw [ih (Nat.mod_lt _ hpos), Nat.mul_comm, Nat.div_add_mod]

theorem unravel_ravel {s idx : List Nat} (h : List.Forall₂ (· < ·) idx s) :
    unravel s (ravel s idx) = idx := by
  induction h with
  | nil => rfl
  | @cons i a is ss hia htail ih =>
    have hr : ravel ss is < prodl ss := ravel_lt htail
    have hpos : 0 < prodl ss := lt_of_le_of_lt (Nat.zero_le _) hr
    simp only [ravel, unravel]
    rw [Nat.add_comm (i * prodl ss) (ravel ss is),
      Nat.add_mul_div_right _ _ hpos, Nat.div_eq_of_lt hr, Nat.zero_add,
      Nat.add_mul_mod_self_right, Nat.mod_eq_of_lt hr, ih]

theorem ravel_append {s idx : List Nat} (t jdx : List Nat)
    (h : idx.length = s.length) :
    ravel (s ++ t) (idx ++ jdx) = ravel s idx * prodl t + ravel t jdx := by
  induction s generalizing idx with
  | nil =>
    have : idx = [] := List.length_eq_zero.mp h
    simp [this, ravel]
  | cons a ss ih =>
    match idx, h with
    | i :: is, h =>
      simp only [List.cons_append, ravel, List.append_eq, prodl_append,
        ih (by simpa using h)]
      ring

theorem unravel_append {s : List Nat} (t : List Nat) {j : Nat}
    (h : j < prodl (s ++ t)) :
    unravel (s ++ t) j = unravel s (j / prodl t) ++ unravel t (j % prodl t) := by
  induction s generalizing j with
  | nil =>
    have : j % prodl t = j := Nat.mod_eq_of_lt (by simpa using h)
    simp [unravel, this]
  | cons a ss ih =>
    have hpos : 0 < prodl (ss ++ t) := by
      rcases Nat.eq_zero_or_pos (prodl (ss ++ t)) with h0 | h0
      · simp [prodl_cons, h0] at h
      · exact h0
    have htpos : 0 < prodl t := by
      rcases Nat.eq_zero_or_pos (prodl t) with h0 | h0
      · rw [prodl_append, h0, Nat.mul_zero] at hpos; exact absurd hpos (by simp)
      · exact h0
    simp only [List.cons_append, unravel, List.append_eq]
    rw [ih (Nat.mod_lt _ hpos)]
    have h1 : j / prodl (ss ++ t) = j / prodl t / prodl ss := by
      rw [prodl_append, Nat.mul_comm, ← Nat.div_div_eq_div_mul]
    have h2 : j % prodl (ss ++ t) / prodl t = j / prodl t % prodl ss := by
      rw [prodl_append, Nat.mul_comm (prodl ss) (prodl t)]
      exact Nat.mod_mul_right_div_self j (prodl t) (prodl ss)
    have h3 : j % prodl (ss ++ t) % prodl t = j % prodl t := by
      rw [prodl_append]
      exact Nat.mod_mod_of_dvd j ⟨prodl ss, Nat.mul_comm _ _⟩
    rw [h1, h2, h3]

/-- Reading every position of a list via `getD` reproduces the list. -/
theorem map_getD_range {α : Type} (l : List α) (d : α) :
    (List.range l.length).map (fun i => l.getD i d) = l := by
  apply List.ext_getElem
  · simp
  · intro i h1 h2
    simp [List.getD_eq_getElem?_getD, List.getElem?_eq_getElem h2]

/-- `getD` on a mapped range evaluates the function inside the bound. -/
theorem getD_map_range {α : Type} (n : Nat) (f : Nat → α) (d : α) {j : Nat}
    (h : j < n) :
    ((List.range n).map f).getD j d = f j := by
  rw [List.getD_eq_getElem?_getD, List.getElem?_eq_getElem (by simpa using h)]
  simp

/-! ### `collections.OrderedDict`, modelled as an association list in
insertion order. -/

abbrev Extent := List (Label × Nat)

/-- `d.get(k, v)`: value of the entry with key `k`, or the default `v`. -/
def odGetD (d : Extent) (k : Label) (v : Nat) : Nat :=
  match d with
  | [] => v
  | p :: rest => if p.1 = k then p.2 else odGetD rest k v

/-- `d[k]` lookup; `none` models a Python `KeyError`. -/
def odGet? (d : Extent) (k : Label) : Option Nat :=
  match d with
  | [] => none
  | p :: rest => if p.1 = k then some p.2 else odGet? rest k

/-- `d[k] = v`: overwrite in place when the key exists (keeping its
position), otherwise append a new entry at the end. -/
def odSet (d : Extent) (k : Label) (v : Nat) : Extent :=
  match d with
  | [] => [(k, v)]
  | p :: rest =>
    if p.1 = k then (k, v) :: rest else p :: odSet rest k v

/-- `OrderedDict(pairs)`: insert the pairs left to right into an empty dict. -/
def odOfList (ps : List (Label × Nat)) : Extent :=
  ps.foldl (fun d p => odSet d p.1 p.2) []

theorem odSet_fresh (d : Extent) (k : Label) (v : Nat)
    (h : k ∉ d.map Prod.fst) : odSet d k v = d ++ [(k, v)] := by
  induction d with
  | nil => rfl
  | cons p rest ih =>
    simp only [List.map_cons, List.mem_cons] at h
    push_neg at h
    simp [odSet, Ne.symm h.1, ih h.2]

theorem foldl_odSet_fresh (ps : List (Label × Nat)) (d : Extent)
    (hnd : (ps.map Prod.fst).Nodup)
    (hdisj : ∀ k ∈ ps.map Prod.fst, k ∉ d.map Prod.fst) :
    ps.foldl (fun d p => odSet d p.1 p.2) d = d ++ ps := by
  induction ps generalizing d with
  | nil => simp
  | cons p rest ih =>
    simp only [List.map_cons, List.nodup_cons] at hnd
    have hp : p.1 ∉ d.map Prod.fst := hdisj p.1 (by simp)
    have hdisj' : ∀ k ∈ rest.map Prod.fst,
        k ∉ (d ++ [(p.1, p.2)]).map Prod.fst := by
      intro k hk
      simp only [List.map_append, List.mem_append, List.map_cons,
        List.map_nil, List.mem_singleton]
      push_neg
      refine ⟨hdisj k (by simp [hk]), fun hkp => hnd.1 (hkp ▸ hk)⟩
    calc List.foldl (fun d p => odSet d p.1 p.2) d (p :: rest)
        = List.foldl (fun d p => odSet d p.1 p.2) (d ++ [(p.1, p.2)]) rest := by
          simp [odSet_fresh d p.1 p.2 hp]
      _ = (d ++ [(p.1, p.2)]) ++ rest := ih _ hnd.2 hdisj'
      _ = d ++ p :: rest := by simp

/-- On a key-duplicate-free pair list, `OrderedDict` keeps the list as is. -/
theorem odOfList_nodup (ps : List (Label × Nat))
    (hnd : (ps.map Prod.fst).Nodup) : odOfList ps = ps := by
  simpa using foldl_odSet_fresh ps [] hnd (by simp)

theorem odGetD_map_self (B : List Label) (f : Label → Nat) (k : Label)
    (d : Nat) (hk : k ∈ B) :
    odGetD (B.map (fun b => (b, f b))) k d = f k := by
  induction B with
  | nil => simp at hk
  | cons b rest ih =>
    by_cases hb : b = k
    · simp [odGetD, hb]
    · rcases List.mem_cons.mp hk with h | h
      · exact absurd h.symm hb
      · simp [odGetD, hb, ih h]

/-- An extent dict whose key sequence is the duplicate-free label list `A`
is recovered by reading every key of `A` back in order. -/
theorem extent_eq_map_of_keys (ext : Extent) (A : List Label) (d : Nat)
    (hk : ext.map Prod.fst = A) (hnd : A.Nodup) :
    A.map (fun ax => (ax, odGetD ext ax d)) = ext := by
  induction ext generalizing A with
  | nil => simp [← hk]
  | cons p rest ih =>
    match A, hk with
    | _ :: A', hk =>
      simp only [List.map_cons, List.cons.injEq] at hk
      obtain ⟨hk1, hk2⟩ := hk
      subst hk1
      simp only [List.nodup_cons] at hnd
      rw [List.map_cons]
      refine List.cons_eq_cons.mpr ⟨by simp [odGetD], ?_⟩
      have hcongr : List.map (fun ax => (ax, odGetD (p :: rest) ax d)) A'
          = List.map (fun ax => (ax, odGetD rest ax d)) A' :=
        List.map_congr_left (fun a ha => by
          have hne : p.1 ≠ a := fun h => hnd.1 (h ▸ (hk2 ▸ ha))
          simp [odGetD, hne])
      rw [hcongr, ih A' hk2 hnd.2]

/-- Value view of `extent_eq_map_of_keys`: reading the values of the keys in
order gives `extent.values()`. -/
theorem values_eq_map_of_keys (ext : Extent) (A : List Label) (d : Nat)
    (hk : ext.map Prod.fst = A) (hnd : A.Nodup) :
    A.map (fun ax => odGetD ext ax d) = ext.map Prod.snd := by
  have := congrArg (List.map Prod.snd) (extent_eq_map_of_keys ext A d hk hnd)
  simpa [List.map_map, Function.comp] using this

/-! ### numpy arrays: a shape plus C-order flat data -/

structure NDArray (α : Type) where
  shape : List Nat
  data : List α
deriving Repr, DecidableEq

/-- `X.size` in numpy: the number of elements. -/
def NDArray.size {α : Type} (X : NDArray α) : Nat := X.data.length

/-- `np.reshape(X, s)`: a C-order reshape keeps the flat data unchanged
(numpy additionally requires `prodl s = X.size`; the call sites below
establish it). -/
def npReshape {α : Type} (X : NDArray α) (s : List Nat) : NDArray α :=
  ⟨s, X.data⟩

/-- Flat offset into an array of shape `sFrom` of the element that
`np.transpose(·, p)` (result shape `sTo`) places at flat offset `j`:
`np.transpose(X, p)[idx] = X[m]` with `m[p[k]] = idx[k]`, that is
`m[d] = idx[p.indexOf d]`. -/
def transposeIndex (p sFrom sTo : List Nat) (j : Nat) : Nat :=
  ravel sFrom ((List.range sFrom.length).map
    (fun k => (unravel sTo j).getD (p.indexOf k) 0))

/-- `np.transpose(X, p)`: dimension `k` of the result is dimension `p[k]`
of the input. -/
def npTranspose {α : Type} (dflt : α) (p : List Nat) (X : NDArray α) :
    NDArray α :=
  let sTo := p.map (fun k => X.shape.getD k 0)
  ⟨sTo, (List.range (prodl sTo)).map
    (fun j => X.data.getD (transposeIndex p X.shape sTo j) dflt)⟩

/-- `np.concatenate([X] * times, axis=k)`: the extent along axis `k` becomes
`times * X.shape[k]`; position `i` along axis `k` of the result reads copy
number `i / X.shape[k]` at position `i % X.shape[k]`, and every copy is `X`
itself. -/
def npConcatSelf {α : Type} (dflt : α) (k times : Nat) (X : NDArray α) :
    NDArray α :=
  let sk := X.shape.getD k 0
  let s' := X.shape.set k (times * sk)
  ⟨s', (List.range (prodl s')).map (fun j =>
    let idx := unravel s' j
    X.data.getD (ravel X.shape (idx.set k (idx.getD k 0 % sk))) dflt)⟩

/-- Specification-side layout of "`times` verbatim concatenations along an
axis": split the flat data into consecutive chunks of `c` elements (`m`
chunks in all) and write each chunk `times` times in a row. -/
def repeatChunks {α : Type} (c times : Nat) : Nat → List α → List α
  | 0, _ => []
  | m + 1, l =>
    (List.replicate times (l.take c)).flatten ++ repeatChunks c times m (l.drop c)

/-! ### The `Space` class (`cpu/space.py`)

A Python axis entry is either a bare leaf-label string or a list of leaf
labels; `list(ax)` maps a bare single-character label `'b'` to `['b']` and a
list to itself, so both are modelled as a `List Label` (bare leaf =
singleton group). -/

structure Space where
  axes : List (List Label)
  extent : Extent
deriving Repr, DecidableEq

/-- `_fold_axes`: flatten the grouped axes into the leaf-label sequence. -/
def foldAxes (axes : List (List Label)) : List Label := axes.flatten

def Space.foldedAxes (S : Space) : List Label := foldAxes S.axes

/-- `folded_shape`: `self._extent.values()`. -/
def Space.foldedShape (S : Space) : List Nat := S.extent.map Prod.snd

/-- `size`: `int(np.prod(self._extent.values()))`. -/
def Space.size (S : Space) : Nat := prodl (S.extent.map Prod.snd)

/-- `_size_of_axis`: product of the extents of the entries whose key lies
in the (possibly grouped) axis `ax`. -/
def Space.sizeOfAxis (S : Space) (ax : List Label) : Nat :=
  prodl ((S.extent.filter (fun p => decide (p.1 ∈ ax))).map Prod.snd)

/-- `shape`: the extent of each top-level (possibly grouped) axis. -/
def Space.shape (S : Space) : List Nat := S.axes.map S.sizeOfAxis

/-- `get_extent(axes)`. -/
def Space.get_extent (S : Space) (axs : List (List Label)) : List Nat :=
  axs.map S.sizeOfAxis

/-- `Space.infer(X, axes)`: `none` models the failed
`assert len(X.shape) == len(axes)` (the `ShapeMismatch` of the spec). -/
def Space.infer {α : Type} (X : NDArray α) (axes : List Label) :
    Option Space :=
  if X.shape.length = axes.length then
    some ⟨axes.map (fun l => [l]), odOfList (axes.zip X.shape)⟩
  else none

/-- The expansion step of `transform`: when the current leaf set is
contained in the target's, append a unit-extent axis for every missing
target leaf (`expanded_axes.append(ax)`, `expanded_extent[ax] = 1`);
otherwise keep `self`.  Python iterates the set difference
`set(new) - set(old)` in unspecified set order; it is modelled here in
first-occurrence order of the target leaves. -/
def Space.expandFor (S : Space) (target : List Label) : Space :=
  if S.foldedAxes.all (fun a => decide (a ∈ target)) then
    ⟨S.axes ++ (target.filter
        (fun a => decide (a ∉ S.foldedAxes))).map (fun a => [a]),
      (target.filter (fun a => decide (a ∉ S.foldedAxes))).foldl
        (fun e a => odSet e a 1) S.extent⟩
  else S

/-- `Space.transform(X, new_axes)`: `none` models the failed leaf-set
assertion (the `IncompatibleAxes` of the spec). -/
def Space.transform {α : Type} (S : Space) (dflt : α) (X : NDArray α)
    (new_axes : List (List Label)) : Option (NDArray α × Space) :=
  let new_extent :=
    odOfList ((foldAxes new_axes).map (fun ax => (ax, odGetD S.extent ax 1)))
  let new_space : Space := ⟨new_axes, new_extent⟩
  let expanded_space : Space := S.expandFor new_space.foldedAxes
  if expanded_space.foldedAxes.all
        (fun a => decide (a ∈ new_space.foldedAxes)) &&
      new_space.foldedAxes.all
        (fun a => decide (a ∈ expanded_space.foldedAxes)) then
    let X1 := npReshape X expanded_space.foldedShape
    let X2 := npTranspose dflt
      (new_space.foldedAxes.map (fun d => expanded_space.foldedAxes.indexOf d))
      X1
    let X3 := npReshape X2 new_space.shape
    some (X3, new_space)
  else none

/-- `Space.broadcast(X, **replicas)`: `none` models a `KeyError` on a folded
axis without an extent entry, a `ValueError` from `folded_axes.index` on an
unknown replica axis, and the failed `assert X.size == new_space.size`.
The `replicas` keyword dict is modelled as a list iterated in order. -/
def Space.broadcast {α : Type} (S : Space) (dflt : α) (X : NDArray α)
    (replicas : List (Label × Nat)) : Option (NDArray α × Space) :=
  match S.foldedAxes.mapM
      (fun ax => (odGet? S.extent ax).map
        (fun v => (ax, v * odGetD replicas ax 1))) with
  | none => none
  | some pairs =>
    let new_space : Space := ⟨S.axes, odOfList pairs⟩
    let X1 := npReshape X S.foldedShape
    if replicas.all (fun p => decide (p.1 ∈ S.foldedAxes)) then
      let X2 := replicas.foldl
        (fun Xc p => npConcatSelf dflt (S.foldedAxes.indexOf p.1) p.2 Xc) X1
      if X2.size = new_space.size then
        some (npReshape X2 new_space.shape, new_space)
      else none
    else none

/-! ### `clone` / `set_extent`, with the extent dict held by reference

`clone` returns `Space(self._axes, self._extent)`: the clone shares the
extent `OrderedDict` object with the source.  To capture that sharing, a
`SpaceRef` holds an index into a heap of extent dicts instead of the dict
itself. -/

structure SpaceRef where
  axes : List (List Label)
  extentRef : Nat
deriving Repr, DecidableEq

abbrev Heap := List Extent

/-- Dereference `self._extent`. -/
def readExtent (h : Heap) (s : SpaceRef) : Extent := h.getD s.extentRef []

/-- `clone`: `Space(self._axes, self._extent)` — same axes object, same
extent dict (no copy is made). -/
def SpaceRef.clone (h : Heap) (s : SpaceRef) : Heap × SpaceRef :=
  (h, ⟨s.axes, s.extentRef⟩)

/-- `set_extent(**extents)`: clone, then `space._extent[ax] = ex` for each
pair — which mutates the dict the clone shares with the source. -/
def SpaceRef.set_extent (h : Heap) (s : SpaceRef)
    (extents : List (Label × Nat)) : Heap × SpaceRef :=
  let hc := s.clone h
  (hc.1.set hc.2.extentRef
      (extents.foldl (fun e p => odSet e p.1 p.2) (readExtent hc.1 hc.2)),
    hc.2)

/-! ### Minibatch data providers (`cpu/optimize/data_provider.py`)

`np.random.permutation` / `random.shuffle` draw a random permutation; the
models receive the permutation drawn at each shuffle as an explicit
argument and reindex with it (`X[perm]`).  Python 2 `/` on ints is floor
division, `Int.fdiv`.  Slices are modelled with `drop`/`take` via `toNat`,
which agrees with Python slicing for the non-negative bounds that occur
here.  The `space_below` entry of the returned metadata (an inferred
`['b','w']` space) is orthogonal to the claims about the providers and is
not part of the modelled batch. -/

/-- `X[perm]` for an index array `perm`. -/
def applyPerm {ρ : Type} (dflt : ρ) (perm : List Nat) (l : List ρ) : List ρ :=
  perm.map (fun i => l.getD i dflt)

/-- Python `l[start:start+size]` for `0 ≤ start`, `0 ≤ size`. -/
def pySlice {ρ : Type} (l : List ρ) (start size : Int) : List ρ :=
  (l.drop start.toNat).take size.toNat

structure MinibatchDataProvider (ξ υ : Type) where
  X : List ξ
  Y : List υ
  lengths : List Nat
  batch_size : Int
  batch_index : Int
  batches_per_epoch : Int
deriving Repr, DecidableEq

/-- `MinibatchDataProvider.__init__`: stores the arrays with no
validation, sets `_batch_index = -1` and
`batches_per_epoch = int(X.shape[0] / batch_size)` (Python 2 floor
division).  `none` models the `ZeroDivisionError` raised when
`batch_size == 0`; no `ConfigurationError` check exists. -/
def MinibatchDataProvider.init {ξ υ : Type} (X : List ξ) (Y : List υ)
    (lengths : List Nat) (batch_size : Int) :
    Option (MinibatchDataProvider ξ υ) :=
  if batch_size = 0 then none
  else some ⟨X, Y, lengths, batch_size, -1,
    Int.fdiv (X.length : Int) batch_size⟩

/-- `_prepare_for_next_batch`: advance `_batch_index` modulo
`batches_per_epoch` and, when it wraps to 0, `_shuffle_data` — one
permutation applied to `X`, `Y` and `lengths` alike. -/
def MinibatchDataProvider.prepare_for_next_batch {ξ υ : Type}
    (dx : ξ) (dy : υ) (p : MinibatchDataProvider ξ υ) (perm : List Nat) :
    MinibatchDataProvider ξ υ :=
  let i := (p.batch_index + 1) % p.batches_per_epoch
  if i = 0 then
    { p with
      batch_index := i
      X := applyPerm dx perm p.X
      Y := applyPerm dy perm p.Y
      lengths := applyPerm 0 perm p.lengths }
  else { p with batch_index := i }

/-- `next_batch`: prepare, then slice
`[batch_index*batch_size : batch_index*batch_size + batch_size)` out of
the three parallel arrays. -/
def MinibatchDataProvider.next_batch {ξ υ : Type} (dx : ξ) (dy : υ)
    (p : MinibatchDataProvider ξ υ) (perm : List Nat) :
    MinibatchDataProvider ξ υ × (List ξ × List υ × List Nat) :=
  let p1 := p.prepare_for_next_batch dx dy perm
  let batch_start := p1.batch_index * p1.batch_size
  (p1, (pySlice p1.X batch_start p1.batch_size,
    pySlice p1.Y batch_start p1.batch_size,
    pySlice p1.lengths batch_start p1.batch_size))

/-- The provider state after `n` calls to `next_batch`, the shuffle of call
`m` (if any) using permutation `perms m`. -/
def MinibatchDataProvider.run {ξ υ : Type} (dx : ξ) (dy : υ)
    (p : MinibatchDataProvider ξ υ) (perms : Nat → List Nat) :
    Nat → MinibatchDataProvider ξ υ
  | 0 => p
  | n + 1 => ((p.run dx dy perms n).next_batch dx dy (perms n)).1

structure PaddedSequenceMinibatchProvider where
  X : List (List Nat)
  batch_size : Int
  padding : Nat
  shuffle : Bool
  batch_index : Int
  batches_per_epoch : Int
deriving Repr, DecidableEq

/-- `PaddedSequenceMinibatchProvider.__init__`: again no validation;
`batches_per_epoch = len(X) / batch_size` (Python 2 floor division),
`none` models the `ZeroDivisionError` for `batch_size == 0`. -/
def PaddedSequenceMinibatchProvider.init (X : List (List Nat))
    (batch_size : Int) (padding : Nat) (shuffle : Bool) :
    Option PaddedSequenceMinibatchProvider :=
  if batch_size = 0 then none
  else some ⟨X, batch_size, padding, shuffle, -1,
    Int.fdiv (X.length : Int) batch_size⟩

/-- `np.equal.outer(Y_batch, np.arange(np.max(Y_batch)+1))`, as 0/1 rows
(`astype(np.float)` only changes the dtype).  `np.max` of an empty batch
raises in numpy; the fold returns 0 there. -/
def oneHot (ys : List Nat) : List (List Nat) :=
  let w := ys.foldr Nat.max 0 + 1
  ys.map (fun y => (List.range w).map (fun j => if y = j then 1 else 0))

structure LabelledSequenceMinibatchProvider where
  X : List (List Nat)
  Y : List Nat
  batch_size : Int
  padding : Nat
  shuffle : Bool
  batch_index : Int
  batches_per_epoch : Int
deriving Repr, DecidableEq

/-- `_prepare_for_next_batch` of `LabelledSequenceMinibatchProvider`:
advance the index; on wrap, shuffle `X` and `Y` with one permutation
(`zip` / `random.shuffle` / `unzip`) only when `self.shuffle` is set. -/
def LabelledSequenceMinibatchProvider.prepare_for_next_batch
    (p : LabelledSequenceMinibatchProvider) (perm : List Nat) :
    LabelledSequenceMinibatchProvider :=
  let i := (p.batch_index + 1) % p.batches_per_epoch
  if i = 0 ∧ p.shuffle then
    { p with
      batch_index := i
      X := applyPerm [] perm p.X
      Y := applyPerm 0 perm p.Y }
  else { p with batch_index := i }

/-- `Y_batch = self.Y[batch_start:batch_end]` read off the prepared
state. -/
def LabelledSequenceMinibatchProvider.labels_batch
    (p : LabelledSequenceMinibatchProvider) : List Nat :=
  pySlice p.Y (p.batch_index * p.batch_size) p.batch_size

/-- `x + [self.padding] * (max_length - len(x))`. -/
def addPadding (padding : Nat) (x : List Nat) (max_length : Nat) : List Nat :=
  x ++ List.replicate (max_length - x.length) padding

/-- `next_batch`: prepare, slice `X` and `Y`, one-hot encode the labels
with `np.max(Y_batch)+1` columns, pad every row of the `X` slice to the
batch maximum length, return `(X_batch, Y_batch, lengths)`. -/
def LabelledSequenceMinibatchProvider.next_batch
    (p : LabelledSequenceMinibatchProvider) (perm : List Nat) :
    LabelledSequenceMinibatchProvider ×
      (List (List Nat) × List (List Nat) × List Nat) :=
  let p1 := p.prepare_for_next_batch perm
  let batch_start := p1.batch_index * p1.batch_size
  let X_batch := pySlice p1.X batch_start p1.batch_size
  let Y_batch := oneHot p1.labels_batch
  let lengths_batch := X_batch.map List.length
  let max_length_batch := lengths_batch.foldr Nat.max 0
  (p1, (X_batch.map (fun x => addPadding p.padding x max_length_batch),
    Y_batch, lengths_batch))

/-! ### C6: grouped `get_extent` -/

theorem prodl_replicate_one (n : Nat) :
    prodl (List.replicate n 1) = 1 := by
  induction n with
  | zero => rfl
  | succ m ih => simp [List.replicate, prodl_cons, ih]

/-- Multiplying one factor of a product over a duplicate-free list. -/
theorem prodl_map_update (group : List Label) (hnd : group.Nodup)
    (k : Label) (hk : k ∈ group) (f g : Label → Nat) (v : Nat)
    (hfk : f k = v * g k) (hother : ∀ l ∈ group, l ≠ k → f l = g l) :
    prodl (group.map f) = v * prodl (group.map g) := by
  induction group with
  | nil => cases hk
  | cons a rest ih =>
    simp only [List.nodup_cons] at hnd
    by_cases hak : a = k
    · subst hak
      have htail : rest.map f = rest.map g :=
        List.map_congr_left (fun l hl =>
          hother l (List.mem_cons_of_mem _ hl)
            (fun h => hnd.1 (h ▸ hl)))
      simp only [List.map_cons, prodl_cons, hfk, htail]
      ring
    · have hk' : k ∈ rest := by
        rcases List.mem_cons.mp hk with h | h
        · exact absurd h.symm hak
        · exact h
      have ha : f a = g a := hother a (List.mem_cons_self a rest) hak
      simp only [List.map_cons, prodl_cons, ha,
        ih hnd.2 hk' (fun l hl hne => hother l (List.mem_cons_of_mem _ hl) hne)]
      ring

/-- `_size_of_axis` over a duplicate-free group is the product of
`_size_of_axis` over the constituent leaves. -/
theorem sizeOfAxis_group (ext : Extent) (group : List Label)
    (hnd : group.Nodup) :
    prodl ((ext.filter (fun p => decide (p.1 ∈ group))).map Prod.snd) =
      prodl (group.map (fun l =>
        prodl ((ext.filter
          (fun p => decide (p.1 ∈ ([l] : List Label)))).map Prod.snd))) := by
  induction ext with
  | nil => simp [prodl_replicate_one]
  | cons p rest ih =>
    by_cases hp : p.1 ∈ group
    · rw [List.filter_cons_of_pos (by simpa using hp), List.map_cons,
        prodl_cons, ih]
      refine (prodl_map_update group hnd p.1 hp _ _ p.2 ?_ ?_).symm
      · rw [List.filter_cons_of_pos (by simp), List.map_cons, prodl_cons]
      · intro l _ hl
        rw [List.filter_cons_of_neg (by simpa using Ne.symm hl)]
    · rw [List.filter_cons_of_neg (by simpa using hp), ih]
      apply congrArg
      apply List.map_congr_left
      intro l hl
      have : p.1 ≠ l := fun h => hp (h ▸ hl)
      rw [List.filter_cons_of_neg (by simpa using this)]

/-- C6: for every `Space` and every grouped axis with no repeated leaf,
`get_extent` on the group is the product of `get_extent` on the
constituent leaves. -/
theorem get_extent_group_eq_prod_of_leaves (S : Space) (group : List Label)
    (hnd : group.Nodup) :
    S.get_extent [group] =
      [prodl (group.map (fun l => (S.get_extent [[l]]).headD 0))] := by
  simp only [Space.get_extent, List.map_cons, List.map_nil, List.headD]
  exact congrArg (fun x => [x]) (sizeOfAxis_group S.extent group hnd)

/-- Witness for C6 on the `{b: 4, w: 10}` space of the spec examples. -/
theorem get_extent_group_eq_prod_of_leaves_witness :
    (Space.get_extent ⟨[["b"], ["w"]], [("b", 4), ("w", 10)]⟩
        [["b", "w"]]) = [40] ∧
    (["b", "w"] : List Label).Nodup ∧
    (Space.get_extent ⟨[["b"], ["w"]], [("b", 4), ("w", 10)]⟩ [["b", "w"]]) =
      [prodl ((["b", "w"] : List Label).map (fun l =>
        ((Space.get_extent ⟨[["b"], ["w"]], [("b", 4), ("w", 10)]⟩
          [[l]]).headD 0)))] :=
  ⟨by decide, by decide,
    get_extent_group_eq_prod_of_leaves ⟨[["b"], ["w"]], [("b", 4), ("w", 10)]⟩
      ["b", "w"] (by decide)⟩

/-! ### C7: `Space.infer` -/

/-- C7: `infer` fails exactly when the label count differs from the array
rank; on success (for a duplicate-free label list) the resulting extent
maps each label, in order, to the corresponding dimension size. -/
theorem infer_fails_iff_rank_mismatch {α : Type} (X : NDArray α)
    (axes : List Label) :
    (Space.infer X axes = none ↔ X.shape.length ≠ axes.length) ∧
    (axes.Nodup → X.shape.length = axes.length →
      Space.infer X axes = some ⟨axes.map (fun l => [l]), axes.zip X.shape⟩) := by
  constructor
  · unfold Space.infer
    by_cases h : X.shape.length = axes.length <;> simp [h]
  · intro hnd hlen
    have hkeys : (axes.zip X.shape).map Prod.fst = axes :=
      List.map_fst_zip axes X.shape (le_of_eq hlen.symm)
    rw [Space.infer, if_pos hlen, odOfList_nodup _ (hkeys.symm ▸ hnd)]

/-- Witness for C7: the spec's `4×10` example. -/
theorem infer_fails_iff_rank_mismatch_witness :
    Space.infer (⟨[4, 10], List.replicate 40 0⟩ : NDArray Nat) ["b", "w"]
      = some ⟨[["b"], ["w"]], [("b", 4), ("w", 10)]⟩ :=
  (infer_fails_iff_rank_mismatch
    (⟨[4, 10], List.replicate 40 0⟩ : NDArray Nat) ["b", "w"]).2
    (by decide) (by decide)

/-! ### C2: `set_extent` mutates the source through the shared dict -/

/-- C2 (counter-evidence): `clone` shares the extent `OrderedDict`, so
`set_extent(b=7)` on a space with extent `{b: 4}` overwrites the named
extent in the returned space — but reading the *source's* extent after the
call yields `{b: 7}` as well: the source's extent mapping is not left
untouched. -/
theorem set_extent_mutates_source :
    readExtent [[("b", 4)]] ⟨[["b"]], 0⟩ = [("b", 4)] ∧
    (SpaceRef.set_extent [[("b", 4)]] ⟨[["b"]], 0⟩ [("b", 7)]).2.axes
      = [["b"]] ∧
    readExtent (SpaceRef.set_extent [[("b", 4)]] ⟨[["b"]], 0⟩ [("b", 7)]).1
      (SpaceRef.set_extent [[("b", 4)]] ⟨[["b"]], 0⟩ [("b", 7)]).2
      = [("b", 7)] ∧
    readExtent (SpaceRef.set_extent [[("b", 4)]] ⟨[["b"]], 0⟩ [("b", 7)]).1
      ⟨[["b"]], 0⟩ = [("b", 7)] := by decide

/-! ### C8: no batch-size validation at construction -/

/-- C8 (counter-evidence): with 3 data rows, `batch_size = 5` and
`batch_size = -2` both construct providers without any error
(`batches_per_epoch` becomes `0` resp. `-2`), `batch_size = 0` raises
`ZeroDivisionError` (not a `ConfigurationError`), and the padded provider
behaves the same; no fail-fast `ConfigurationError` exists. -/
theorem provider_init_no_validation :
    MinibatchDataProvider.init ([10, 20, 30] : List Nat)
        ([0, 1, 0] : List Nat) [1, 1, 1] 5
      = some ⟨[10, 20, 30], [0, 1, 0], [1, 1, 1], 5, -1, 0⟩ ∧
    MinibatchDataProvider.init ([10, 20, 30] : List Nat)
        ([0, 1, 0] : List Nat) [1, 1, 1] (-2)
      = some ⟨[10, 20, 30], [0, 1, 0], [1, 1, 1], -2, -1, -2⟩ ∧
    MinibatchDataProvider.init ([10, 20, 30] : List Nat)
        ([0, 1, 0] : List Nat) [1, 1, 1] 0 = none ∧
    PaddedSequenceMinibatchProvider.init [[1], [2], [3]] 5 0 true
      = some ⟨[[1], [2], [3]], 5, 0, true, -1, 0⟩ := by decide

/-! ### C10: batch-local one-hot encoding -/

theorem foldr_max_le_of_mem {l : List Nat} {y : Nat} (h : y ∈ l) :
    y ≤ l.foldr Nat.max 0 := by
  induction l with
  | nil => cases h
  | cons a rest ih =>
    rcases List.mem_cons.mp h with h | h
    · subst h; exact Nat.le_max_left _ _
    · exact le_trans (ih h) (Nat.le_max_right _ _)

theorem foldr_max_mem {l : List Nat} (h : l ≠ []) : l.foldr Nat.max 0 ∈ l := by
  induction l with
  | nil => exact absurd rfl h
  | cons a rest ih =>
    cases rest with
    | nil => simp
    | cons b rest' =>
      rw [List.foldr_cons]
      rcases Nat.le_total (List.foldr Nat.max 0 (b :: rest')) a with hle | hle
      · have hm : Nat.max a (List.foldr Nat.max 0 (b :: rest')) = a :=
          Nat.max_eq_left hle
        rw [hm]; exact List.mem_cons_self _ _
      · have hm : Nat.max a (List.foldr Nat.max 0 (b :: rest')) =
            List.foldr Nat.max 0 (b :: rest') := Nat.max_eq_right hle
        rw [hm]; exact List.mem_cons_of_mem _ (ih (by simp))

/-- C10: every batch the labelled sequence provider emits carries the
labels one-hot encoded with `max(batch labels) + 1` columns — a
batch-local width (the fold below is the batch maximum: it bounds every
label of the batch and is attained by one of them) — and each row holds a
1 exactly at its label's position. -/
theorem labelled_provider_one_hot (p : LabelledSequenceMinibatchProvider)
    (perm : List Nat) (r j : Nat) :
    let p1 := p.prepare_for_next_batch perm
    let ys := p1.labels_batch
    let w := ys.foldr Nat.max 0 + 1
    (p.next_batch perm).2.2.1 = oneHot ys ∧
    (∀ y ∈ ys, y + 1 ≤ w) ∧
    (ys ≠ [] → ∃ y ∈ ys, y + 1 = w) ∧
    (r < ys.length → ((oneHot ys).getD r []).length = w) ∧
    (r < ys.length → j < w →
      ((oneHot ys).getD r []).getD j 0 = if ys.getD r 0 = j then 1 else 0) := by
  intro p1 ys w
  have hrow : ∀ hr : r < ys.length,
      (oneHot ys).getD r [] =
        (List.range w).map (fun j => if ys[r] = j then 1 else 0) := by
    intro hr
    rw [oneHot]
    rw [List.getD_eq_getElem?_getD,
      List.getElem?_eq_getElem (by simpa using hr)]
    simp
  refine ⟨rfl, ?_, ?_, ?_, ?_⟩
  · intro y hy
    exact Nat.succ_le_succ (foldr_max_le_of_mem hy)
  · intro hne
    exact ⟨ys.foldr Nat.max 0, foldr_max_mem hne, rfl⟩
  · intro hr
    rw [hrow hr]
    simp [w]
  · intro hr hj
    rw [hrow hr, getD_map_range _ _ _ hj,
      List.getD_eq_getElem?_getD, List.getElem?_eq_getElem hr]
    simp

/-- Witness for C10: the spec's `[0, 2, 1]` label batch (width 3). -/
theorem labelled_provider_one_hot_witness :
    let p : LabelledSequenceMinibatchProvider :=
      ⟨[[5], [6], [7]], [0, 2, 1], 3, 0, false, -1, 1⟩
    let p1 := p.prepare_for_next_batch []
    let ys := p1.labels_batch
    let w := ys.foldr Nat.max 0 + 1
    (p.next_batch []).2.2.1 = oneHot ys ∧
    (∀ y ∈ ys, y + 1 ≤ w) ∧
    (ys ≠ [] → ∃ y ∈ ys, y + 1 = w) ∧
    (1 < ys.length → ((oneHot ys).getD 1 []).length = w) ∧
    (1 < ys.length → 2 < w →
      ((oneHot ys).getD 1 []).getD 2 0 = if ys.getD 1 0 = 2 then 1 else 0) :=
  labelled_provider_one_hot ⟨[[5], [6], [7]], [0, 2, 1], 3, 0, false, -1, 1⟩
    [] 1 2

/-! ### Well-formedness and `transform` branch analysis -/

/-- The invariant every constructor in the repo maintains (spec §3): the
extent dict has exactly the folded leaf labels as keys, in folding order,
and no leaf appears twice. -/
def SpaceWF (S : Space) : Prop :=
  S.extent.map Prod.fst = S.foldedAxes ∧ S.foldedAxes.Nodup

instance (S : Space) : Decidable (SpaceWF S) := by
  unfold SpaceWF; infer_instance

theorem list_all_mem_iff (L M : List Label) :
    (L.all (fun a => decide (a ∈ M)) = true) ↔ ∀ a ∈ L, a ∈ M := by
  simp [List.all_eq_true]

theorem flatten_map_singleton {β : Type} (l : List β) :
    (l.map (fun a => ([a] : List β))).flatten = l := by
  induction l with
  | nil => rfl
  | cons a rest ih => simp [ih]

theorem odGetD_not_mem (d : Extent) (k : Label) (v : Nat)
    (h : k ∉ d.map Prod.fst) : odGetD d k v = v := by
  induction d with
  | nil => rfl
  | cons p rest ih =>
    simp only [List.map_cons, List.mem_cons] at h
    push_neg at h
    simp [odGetD, Ne.symm h.1, ih h.2]

theorem odGet?_map_self (B : List Label) (f : Label → Nat) (k : Label)
    (hk : k ∈ B) :
    odGet? (B.map (fun b => (b, f b))) k = some (f k) := by
  induction B with
  | nil => cases hk
  | cons b rest ih =>
    by_cases hb : b = k
    · simp [odGet?, hb]
    · rcases List.mem_cons.mp hk with h | h
      · exact absurd h.symm hb
      · simp [odGet?, hb, ih h]

theorem prodl_eq_prod (l : List Nat) : prodl l = l.prod := by
  induction l with
  | nil => rfl
  | cons a rest ih => simp [prodl_cons, List.prod_cons, ih]

theorem prodl_perm {l₁ l₂ : List Nat} (h : l₁.Perm l₂) :
    prodl l₁ = prodl l₂ := by
  rw [prodl_eq_prod, prodl_eq_prod]
  exact h.prod_eq

theorem prodl_map_mul {β : Type} (l : List β) (f g : β → Nat) :
    prodl (l.map (fun b => f b * g b)) =
      prodl (l.map f) * prodl (l.map g) := by
  induction l with
  | nil => rfl
  | cons a rest ih => simp only [List.map_cons, prodl_cons, ih]; ring

/-- Keys of a pair-building map. -/
theorem map_fst_map_pair (B : List Label) (f : Label → Nat) :
    (B.map (fun ax => (ax, f ax))).map Prod.fst = B := by
  induction B with
  | nil => rfl
  | cons b rest ih => simp [ih]

/-- With the current leaf set inside the target set, `expandFor` appends
the missing target leaves (in target order) as fresh unit-extent axes. -/
theorem expandFor_of_subset (S : Space) (target : List Label)
    (hWF : SpaceWF S) (hnd : target.Nodup)
    (hsub : ∀ a ∈ S.foldedAxes, a ∈ target) :
    S.expandFor target =
      ⟨S.axes ++ (target.filter
          (fun a => decide (a ∉ S.foldedAxes))).map (fun a => [a]),
        S.extent ++ (target.filter
          (fun a => decide (a ∉ S.foldedAxes))).map (fun a => (a, 1))⟩ := by
  rw [Space.expandFor, if_pos ((list_all_mem_iff _ _).mpr hsub)]
  have hfold : (target.filter (fun a => decide (a ∉ S.foldedAxes))).foldl
      (fun e a => odSet e a 1) S.extent =
      ((target.filter (fun a => decide (a ∉ S.foldedAxes))).map
        (fun a => (a, 1))).foldl (fun e p => odSet e p.1 p.2) S.extent := by
    rw [List.foldl_map]
  rw [hfold, foldl_odSet_fresh]
  · rw [map_fst_map_pair]
    exact (hnd.filter _)
  · rw [map_fst_map_pair, hWF.1]
    intro k hk
    have hdec := List.of_mem_filter hk
    simpa using hdec

/-- With equal leaf sets nothing is missing: `expandFor` is the identity. -/
theorem expandFor_of_equal (S : Space) (target : List Label)
    (hsub : ∀ a ∈ S.foldedAxes, a ∈ target)
    (hsup : ∀ a ∈ target, a ∈ S.foldedAxes) :
    S.expandFor target = S := by
  rw [Space.expandFor, if_pos ((list_all_mem_iff _ _).mpr hsub)]
  have hfil : target.filter (fun a => decide (a ∉ S.foldedAxes)) = [] :=
    List.filter_eq_nil_iff.mpr (fun a ha => by simpa using hsup a ha)
  rw [hfil]
  simp

/-- Membership in the expanded leaf set, given the subset condition. -/
theorem expandFor_mem_iff (S : Space) (target : List Label)
    (hsub : ∀ a ∈ S.foldedAxes, a ∈ target) (x : Label) :
    x ∈ (S.expandFor target).foldedAxes ↔ x ∈ target := by
  rw [Space.expandFor, if_pos ((list_all_mem_iff _ _).mpr hsub)]
  simp only [Space.foldedAxes, foldAxes, List.flatten_append,
    List.mem_append, flatten_map_singleton]
  constructor
  · rintro (hx | hx)
    · exact hsub x hx
    · exact List.mem_of_mem_filter hx
  · intro hx
    by_cases hA : x ∈ foldAxes S.axes
    · exact Or.inl hA
    · refine Or.inr (List.mem_filter.mpr ⟨hx, ?_⟩)
      simp only [decide_eq_true_eq]
      exact hA

/-- Success normal form of `transform` under the subset condition. -/
theorem transform_eq_some_of_subset (S : Space) {α : Type} (dflt : α)
    (X : NDArray α) (new_axes : List (List Label))
    (hsub : ∀ a ∈ S.foldedAxes, a ∈ foldAxes new_axes) :
    S.transform dflt X new_axes =
      some (npReshape
        (npTranspose dflt
          ((foldAxes new_axes).map
            (fun d => (S.expandFor (foldAxes new_axes)).foldedAxes.indexOf d))
          (npReshape X (S.expandFor (foldAxes new_axes)).foldedShape))
        (Space.shape ⟨new_axes, odOfList ((foldAxes new_axes).map
          (fun ax => (ax, odGetD S.extent ax 1)))⟩),
        ⟨new_axes, odOfList ((foldAxes new_axes).map
          (fun ax => (ax, odGetD S.extent ax 1)))⟩) := by
  have hcond : (((foldAxes (S.expandFor (foldAxes new_axes)).axes).all
      (fun a => decide (a ∈ foldAxes new_axes)) &&
      (foldAxes new_axes).all
        (fun a => decide (a ∈ foldAxes (S.expandFor (foldAxes new_axes)).axes))))
      = true := by
    rw [Bool.and_eq_true, list_all_mem_iff, list_all_mem_iff]
    exact ⟨fun a ha => (expandFor_mem_iff S _ hsub a).mp ha,
      fun a ha => (expandFor_mem_iff S _ hsub a).mpr ha⟩
  rw [Space.transform]
  dsimp only [Space.foldedAxes]
  rw [hcond]
  simp only [if_true]

/-- Failure normal form of `transform`: a dropped leaf means `none`. -/
theorem transform_eq_none_of_not_subset (S : Space) {α : Type} (dflt : α)
    (X : NDArray α) (new_axes : List (List Label))
    (hnsub : ¬ ∀ a ∈ S.foldedAxes, a ∈ foldAxes new_axes) :
    S.transform dflt X new_axes = none := by
  have hexp : S.expandFor (foldAxes new_axes) = S := by
    rw [Space.expandFor, if_neg]
    simpa [list_all_mem_iff] using hnsub
  have hcond : (((foldAxes (S.expandFor (foldAxes new_axes)).axes).all
      (fun a => decide (a ∈ foldAxes new_axes)) &&
      (foldAxes new_axes).all
        (fun a => decide (a ∈ foldAxes (S.expandFor (foldAxes new_axes)).axes))))
      = false := by
    rw [Bool.and_eq_false_iff]
    left
    have hexp' : foldAxes (S.expandFor (foldAxes new_axes)).axes
        = S.foldedAxes := by rw [hexp]; rfl
    rw [hexp']
    rcases (by simpa using hnsub : ∃ a ∈ S.foldedAxes,
      a ∉ foldAxes new_axes) with ⟨a, ha, hna⟩
    exact List.all_eq_false.mpr ⟨a, ha, by simpa using hna⟩
  rw [Space.transform]
  dsimp only [Space.foldedAxes]
  rw [hcond]
  simp only [Bool.false_eq_true, if_false]

/-! ### C3: when `transform` raises `IncompatibleAxes` -/

/-- C3: `transform` fails exactly when the target leaf set drops a leaf
the source has; under the subset condition every missing target leaf is
appended to the current layout (in target order) with extent 1 and the
transform succeeds. -/
theorem transform_fails_iff_dropped_leaf (S : Space) {α : Type} (dflt : α)
    (X : NDArray α) (new_axes : List (List Label)) (hWF : SpaceWF S)
    (hndB : (foldAxes new_axes).Nodup) :
    ((S.transform dflt X new_axes).isSome = true
        ↔ ∀ a ∈ S.foldedAxes, a ∈ foldAxes new_axes) ∧
    ((∀ a ∈ S.foldedAxes, a ∈ foldAxes new_axes) →
      (S.expandFor (foldAxes new_axes)).axes
          = S.axes ++ ((foldAxes new_axes).filter
              (fun a => decide (a ∉ S.foldedAxes))).map (fun a => [a]) ∧
      (S.expandFor (foldAxes new_axes)).extent
          = S.extent ++ ((foldAxes new_axes).filter
              (fun a => decide (a ∉ S.foldedAxes))).map (fun a => (a, 1))) := by
  constructor
  · constructor
    · intro hsome
      by_contra hn
      rw [transform_eq_none_of_not_subset S dflt X new_axes hn] at hsome
      simp at hsome
    · intro hsub
      rw [transform_eq_some_of_subset S dflt X new_axes hsub]
      rfl
  · intro hsub
    rw [expandFor_of_subset S (foldAxes new_axes) hWF hndB hsub]
    exact ⟨rfl, rfl⟩

/-- Witness for C3: `{b: 2}` expanded into `[['b'], ['w']]`. -/
theorem transform_fails_iff_dropped_leaf_witness :
    ((Space.transform ⟨[["b"]], [("b", 2)]⟩ (99 : Nat) ⟨[2], [5, 6]⟩
        [["b"], ["w"]]).isSome = true
      ↔ ∀ a ∈ (Space.mk [["b"]] [("b", 2)]).foldedAxes,
          a ∈ foldAxes [["b"], ["w"]]) ∧
    ((∀ a ∈ (Space.mk [["b"]] [("b", 2)]).foldedAxes,
        a ∈ foldAxes [["b"], ["w"]]) →
      ((Space.mk [["b"]] [("b", 2)]).expandFor
          (foldAxes [["b"], ["w"]])).axes
        = [["b"]] ++ ((foldAxes [["b"], ["w"]]).filter
            (fun a => decide
              (a ∉ (Space.mk [["b"]] [("b", 2)]).foldedAxes))).map
            (fun a => [a]) ∧
      ((Space.mk [["b"]] [("b", 2)]).expandFor
          (foldAxes [["b"], ["w"]])).extent
        = [("b", 2)] ++ ((foldAxes [["b"], ["w"]]).filter
            (fun a => decide
              (a ∉ (Space.mk [["b"]] [("b", 2)]).foldedAxes))).map
            (fun a => (a, 1))) :=
  transform_fails_iff_dropped_leaf ⟨[["b"]], [("b", 2)]⟩ (99 : Nat)
    ⟨[2], [5, 6]⟩ [["b"], ["w"]] (by decide) (by decide)

/-! ### C4: sizes under `transform` and `broadcast` -/

theorem prodl_map_eq_one {β : Type} (l : List β) (f : β → Nat)
    (h : ∀ b ∈ l, f b = 1) : prodl (l.map f) = 1 := by
  induction l with
  | nil => rfl
  | cons a rest ih =>
    simp [prodl_cons, h a (List.mem_cons_self a rest),
      ih (fun b hb => h b (List.mem_cons_of_mem _ hb))]

/-- Product of the target-leaf extent reads, when the source leaves sit
inside the (duplicate-free) target: missing leaves read the default 1. -/
theorem prodl_map_getD_superset (E : Extent) (A B : List Label)
    (hkeys : E.map Prod.fst = A) (hA : A.Nodup) (hB : B.Nodup)
    (hsub : ∀ a ∈ A, a ∈ B) :
    prodl (B.map (fun ax => odGetD E ax 1)) = prodl (E.map Prod.snd) := by
  have hperm : B.Perm
      (B.filter (fun a => decide (a ∈ A)) ++
        B.filter (fun a => !decide (a ∈ A))) :=
    (List.filter_append_perm _ B).symm
  rw [prodl_perm (hperm.map _), List.map_append, prodl_append]
  have h2 : prodl ((B.filter (fun a => !decide (a ∈ A))).map
      (fun ax => odGetD E ax 1)) = 1 := by
    apply prodl_map_eq_one
    intro b hb
    have hnb : b ∉ A := by simpa using List.of_mem_filter hb
    exact odGetD_not_mem E b 1 (hkeys ▸ hnb)
  have hpermA : (B.filter (fun a => decide (a ∈ A))).Perm A := by
    rw [List.perm_ext_iff_of_nodup (hB.filter _) hA]
    intro a
    simp only [List.mem_filter, decide_eq_true_eq]
    exact ⟨fun h => h.2, fun h => ⟨hsub a h, h⟩⟩
  rw [h2, Nat.mul_one, prodl_perm (hpermA.map _),
    values_eq_map_of_keys E A 1 hkeys hA]

/-- `[ext[ax] * replicas.get(ax, 1) for ax in A]` multiplies out to the
product of the replica counts, for duplicate-free replica keys drawn from
the duplicate-free `A`. -/
theorem prodl_map_replicas (A : List Label) (reps : List (Label × Nat))
    (hA : A.Nodup) (hknd : (reps.map Prod.fst).Nodup)
    (hsub : ∀ k ∈ reps.map Prod.fst, k ∈ A) :
    prodl (A.map (fun ax => odGetD reps ax 1)) =
      prodl (reps.map Prod.snd) := by
  induction reps generalizing A with
  | nil =>
    simp only [List.map_nil, prodl_nil]
    exact prodl_map_eq_one A _ (fun b _ => rfl)
  | cons p rest ih =>
    simp only [List.map_cons, List.nodup_cons] at hknd
    have hpA : p.1 ∈ A := hsub p.1 (by simp)
    have hrest : odGetD rest p.1 1 = 1 := odGetD_not_mem rest p.1 1 hknd.1
    rw [prodl_map_update A hA p.1 hpA _ (fun ax => odGetD rest ax 1) p.2
      (by simp [odGetD, hrest])
      (fun l _ hl => by simp [odGetD, Ne.symm hl]),
      ih A hA hknd.2 (fun k hk => hsub k (List.mem_cons_of_mem _ hk)),
      List.map_cons, prodl_cons]

/-- Evaluating the `mapM` that builds broadcast's new extent. -/
theorem mapM_broadcast_extent (A : List Label) (E : Extent)
    (g r : Label → Nat) (hE : ∀ ax ∈ A, odGet? E ax = some (g ax)) :
    (A.mapM (fun ax => (odGet? E ax).map (fun v => (ax, v * r ax))))
      = some (A.map (fun ax => (ax, g ax * r ax))) := by
  induction A with
  | nil => rfl
  | cons a rest ih =>
    rw [List.mapM_cons, hE a (List.mem_cons_self a rest),
      ih (fun ax hax => hE ax (List.mem_cons_of_mem _ hax))]
    rfl

/-- Under well-formedness, every folded axis has an extent entry. -/
theorem odGet?_of_WF (S : Space) (hWF : SpaceWF S) :
    ∀ ax ∈ S.foldedAxes, odGet? S.extent ax = some (odGetD S.extent ax 1) := by
  intro ax hax
  have hrepr := extent_eq_map_of_keys S.extent S.foldedAxes 1 hWF.1 hWF.2
  calc odGet? S.extent ax
      = odGet? (S.foldedAxes.map
          (fun a => (a, odGetD S.extent a 1))) ax := by rw [hrepr]
    _ = some (odGetD S.extent ax 1) := odGet?_map_self _ _ ax hax

theorem map_snd_map_pair (B : List Label) (f : Label → Nat) :
    (B.map (fun ax => (ax, f ax))).map Prod.snd = B.map f := by
  induction B with
  | nil => rfl
  | cons b rest ih => simp [ih]

/-- C4: every successful `transform` conserves `size` (missing target
leaves only contribute unit extents), and every successful `broadcast`
multiplies `size` by the product of the requested replica counts. -/
theorem transform_broadcast_size (S : Space) (new_axes : List (List Label))
    (replicas : List (Label × Nat)) {α : Type} (dflt : α)
    (X X' Y Y' : NDArray α) (T B : Space)
    (hWF : SpaceWF S) (hndB : (foldAxes new_axes).Nodup)
    (hrnd : (replicas.map Prod.fst).Nodup)
    (hrsub : ∀ k ∈ replicas.map Prod.fst, k ∈ S.foldedAxes) :
    (S.transform dflt X new_axes = some (Y, T) → T.size = S.size) ∧
    (S.broadcast dflt X' replicas = some (Y', B) →
      B.size = S.size * prodl (replicas.map Prod.snd)) := by
  constructor
  · intro hsucc
    have hsub : ∀ a ∈ S.foldedAxes, a ∈ foldAxes new_axes := by
      by_contra hn
      rw [transform_eq_none_of_not_subset S dflt X new_axes hn] at hsucc
      cases hsucc
    rw [transform_eq_some_of_subset S dflt X new_axes hsub] at hsucc
    have hT : T = ⟨new_axes, odOfList ((foldAxes new_axes).map
        (fun ax => (ax, odGetD S.extent ax 1)))⟩ :=
      (congrArg Prod.snd (Option.some.inj hsucc)).symm
    rw [hT, Space.size, odOfList_nodup _
      (by rw [map_fst_map_pair]; exact hndB), map_snd_map_pair]
    exact prodl_map_getD_superset S.extent S.foldedAxes (foldAxes new_axes)
      hWF.1 hWF.2 hndB hsub
  · intro hsucc
    rw [Space.broadcast, mapM_broadcast_extent S.foldedAxes S.extent
      (fun ax => odGetD S.extent ax 1) (fun ax => odGetD replicas ax 1)
      (odGet?_of_WF S hWF)] at hsucc
    have hall : replicas.all (fun p => decide (p.1 ∈ S.foldedAxes)) = true := by
      rw [List.all_eq_true]
      intro p hp
      exact decide_eq_true (hrsub p.1 (List.mem_map_of_mem Prod.fst hp))
    simp only [hall, if_true] at hsucc
    split at hsucc
    case isTrue hsize =>
      have hB : B = ⟨S.axes, odOfList (S.foldedAxes.map (fun ax =>
          (ax, odGetD S.extent ax 1 * odGetD replicas ax 1)))⟩ :=
        (congrArg Prod.snd (Option.some.inj hsucc)).symm
      rw [hB, Space.size, odOfList_nodup _
        (by rw [map_fst_map_pair]; exact hWF.2), map_snd_map_pair,
        prodl_map_mul,
        values_eq_map_of_keys S.extent S.foldedAxes 1 hWF.1 hWF.2,
        prodl_map_replicas S.foldedAxes replicas hWF.2 hrnd hrsub]
      rfl
    case isFalse => cases hsucc

/-- Witness for C4: a fold-and-permute to `[['w','b']]` conserves size 6;
broadcasting `b` by 2 doubles it. -/
theorem transform_broadcast_size_witness :
    (Space.transform ⟨[["b"], ["w"]], [("b", 2), ("w", 3)]⟩ (99 : Nat)
        ⟨[2, 3], [0, 1, 2, 3, 4, 5]⟩ [["w", "b"]]
      = some (⟨[6], [0, 3, 1, 4, 2, 5]⟩,
          ⟨[["w", "b"]], [("w", 3), ("b", 2)]⟩) →
      (Space.mk [["w", "b"]] [("w", 3), ("b", 2)]).size
        = (Space.mk [["b"], ["w"]] [("b", 2), ("w", 3)]).size) ∧
    (Space.broadcast ⟨[["b"], ["w"]], [("b", 2), ("w", 3)]⟩ (99 : Nat)
        ⟨[2, 3], [0, 1, 2, 3, 4, 5]⟩ [("b", 2)]
      = some (⟨[4, 3], [0, 1, 2, 3, 4, 5, 0, 1, 2, 3, 4, 5]⟩,
          ⟨[["b"], ["w"]], [("b", 4), ("w", 3)]⟩) →
      (Space.mk [["b"], ["w"]] [("b", 4), ("w", 3)]).size
        = (Space.mk [["b"], ["w"]] [("b", 2), ("w", 3)]).size
            * prodl ([(("b" : Label), 2)].map Prod.snd)) :=
  transform_broadcast_size ⟨[["b"], ["w"]], [("b", 2), ("w", 3)]⟩
    [["w", "b"]] [("b", 2)] (99 : Nat) ⟨[2, 3], [0, 1, 2, 3, 4, 5]⟩
    ⟨[2, 3], [0, 1, 2, 3, 4, 5]⟩ ⟨[6], [0, 3, 1, 4, 2, 5]⟩
    ⟨[4, 3], [0, 1, 2, 3, 4, 5, 0, 1, 2, 3, 4, 5]⟩
    ⟨[["w", "b"]], [("w", 3), ("b", 2)]⟩
    ⟨[["b"], ["w"]], [("b", 4), ("w", 3)]⟩
    (by decide) (by decide) (by decide) (by decide)

/-! ### C9: the minibatch epoch schedule -/

theorem run_succ {ξ υ : Type} (dx : ξ) (dy : υ)
    (p : MinibatchDataProvider ξ υ) (perms : Nat → List Nat) (m : Nat) :
    p.run dx dy perms (m + 1)
      = (p.run dx dy perms m).prepare_for_next_batch dx dy (perms m) := rfl

/-- What one `_prepare_for_next_batch` call does to each field. -/
theorem prepare_spec {ξ υ : Type} (dx : ξ) (dy : υ)
    (q : MinibatchDataProvider ξ υ) (perm : List Nat) :
    (q.prepare_for_next_batch dx dy perm).batch_index
        = (q.batch_index + 1) % q.batches_per_epoch ∧
    (q.prepare_for_next_batch dx dy perm).batches_per_epoch
        = q.batches_per_epoch ∧
    (q.prepare_for_next_batch dx dy perm).batch_size = q.batch_size ∧
    ((q.batch_index + 1) % q.batches_per_epoch = 0 →
      (q.prepare_for_next_batch dx dy perm).X = applyPerm dx perm q.X ∧
      (q.prepare_for_next_batch dx dy perm).Y = applyPerm dy perm q.Y ∧
      (q.prepare_for_next_batch dx dy perm).lengths
        = applyPerm 0 perm q.lengths) ∧
    ((q.batch_index + 1) % q.batches_per_epoch ≠ 0 →
      (q.prepare_for_next_batch dx dy perm).X = q.X ∧
      (q.prepare_for_next_batch dx dy perm).Y = q.Y ∧
      (q.prepare_for_next_batch dx dy perm).lengths = q.lengths) := by
  unfold MinibatchDataProvider.prepare_for_next_batch
  by_cases h : (q.batch_index + 1) % q.batches_per_epoch = 0 <;>
    simp [h]

theorem run_preserve {ξ υ : Type} (dx : ξ) (dy : υ)
    (p : MinibatchDataProvider ξ υ) (perms : Nat → List Nat) (n : Nat) :
    (p.run dx dy perms n).batches_per_epoch = p.batches_per_epoch ∧
    (p.run dx dy perms n).batch_size = p.batch_size := by
  induction n with
  | zero => exact ⟨rfl, rfl⟩
  | succ m ih =>
    rw [run_succ]
    exact ⟨(prepare_spec dx dy _ (perms m)).2.1.trans ih.1,
      (prepare_spec dx dy _ (perms m)).2.2.1.trans ih.2⟩

theorem run_batch_index {ξ υ : Type} (dx : ξ) (dy : υ)
    (p : MinibatchDataProvider ξ υ) (perms : Nat → List Nat)
    (hbi : p.batch_index = -1) :
    ∀ n, 1 ≤ n → (p.run dx dy perms n).batch_index
      = ((n : Int) - 1) % p.batches_per_epoch := by
  intro n
  induction n with
  | zero => intro h; cases h
  | succ m ih =>
    intro _
    rw [run_succ, (prepare_spec dx dy _ (perms m)).1,
      (run_preserve dx dy p perms m).1]
    rcases Nat.eq_zero_or_pos m with h0 | hm
    · subst h0
      simp [MinibatchDataProvider.run, hbi]
    · rw [ih hm, Int.emod_add_emod]
      congr 1
      push_cast
      ring

theorem next_batch_slices_X {ξ υ : Type} (dx : ξ) (dy : υ)
    (q : MinibatchDataProvider ξ υ) (perm : List Nat) :
    (q.next_batch dx dy perm).2.1
      = pySlice (q.prepare_for_next_batch dx dy perm).X
          ((q.prepare_for_next_batch dx dy perm).batch_index
            * (q.prepare_for_next_batch dx dy perm).batch_size)
          (q.prepare_for_next_batch dx dy perm).batch_size := rfl

theorem next_batch_slices_Y {ξ υ : Type} (dx : ξ) (dy : υ)
    (q : MinibatchDataProvider ξ υ) (perm : List Nat) :
    (q.next_batch dx dy perm).2.2.1
      = pySlice (q.prepare_for_next_batch dx dy perm).Y
          ((q.prepare_for_next_batch dx dy perm).batch_index
            * (q.prepare_for_next_batch dx dy perm).batch_size)
          (q.prepare_for_next_batch dx dy perm).batch_size := rfl

/-- Python slicing `l[s : s+c][k] = l[s+k]` for `k < c`. -/
theorem pySlice_getD {ρ : Type} (l : List ρ) (start size : Int) (k : Nat)
    (d : ρ) (hk : k < size.toNat) :
    (pySlice l start size).getD k d = l.getD (start.toNat + k) d := by
  rw [pySlice, List.getD_eq_getElem?_getD, List.getD_eq_getElem?_getD,
    List.getElem?_take_of_lt hk, List.getElem?_drop]

/-- The batch starting positions of one epoch tile `[0, m*c)` exactly. -/
theorem range_flatMap_range (m c : Nat) :
    (List.range m).flatMap (fun i => (List.range c).map (fun j => i * c + j))
      = List.range (m * c) := by
  induction m with
  | zero => simp
  | succ mm ih =>
    rw [List.range_succ, List.flatMap_append, ih, Nat.succ_mul,
      List.range_add]
    simp

/-- C9: from a freshly constructed provider, after `n ≥ 1` calls the batch
index is `(n-1) mod batches_per_epoch`; call `n` reshuffles all three
parallel arrays with one permutation exactly when that index wraps to 0;
the emitted batch holds the contiguous rows `[index*B, (index+1)*B)` of
the (post-shuffle) arrays; `batches_per_epoch = floor(D/B)`, so the batch
start offsets of one epoch cover exactly the first
`batches_per_epoch * B` row positions. -/
theorem minibatch_epoch_schedule {ξ υ : Type} (dx : ξ) (dy : υ)
    (X : List ξ) (Yl : List υ) (lengths : List Nat) (Bsz : Int)
    (p : MinibatchDataProvider ξ υ) (perms : Nat → List Nat) (n k : Nat)
    (hinit : MinibatchDataProvider.init X Yl lengths Bsz = some p)
    (hn : 1 ≤ n) (hk : k < Bsz.toNat) :
    (p.run dx dy perms n).batch_index
        = ((n : Int) - 1) % p.batches_per_epoch ∧
    (((n : Int) - 1) % p.batches_per_epoch = 0 →
      (p.run dx dy perms n).X
          = applyPerm dx (perms (n - 1)) ((p.run dx dy perms (n - 1)).X) ∧
      (p.run dx dy perms n).Y
          = applyPerm dy (perms (n - 1)) ((p.run dx dy perms (n - 1)).Y) ∧
      (p.run dx dy perms n).lengths
          = applyPerm 0 (perms (n - 1))
              ((p.run dx dy perms (n - 1)).lengths)) ∧
    (((n : Int) - 1) % p.batches_per_epoch ≠ 0 →
      (p.run dx dy perms n).X = (p.run dx dy perms (n - 1)).X ∧
      (p.run dx dy perms n).Y = (p.run dx dy perms (n - 1)).Y ∧
      (p.run dx dy perms n).lengths
          = (p.run dx dy perms (n - 1)).lengths) ∧
    (((p.run dx dy perms (n - 1)).next_batch dx dy (perms (n - 1))).2.1.getD
          k dx
        = (p.run dx dy perms n).X.getD
            (((((n : Int) - 1) % p.batches_per_epoch) * Bsz).toNat + k) dx) ∧
    (((p.run dx dy perms (n - 1)).next_batch dx dy (perms (n - 1))).2.2.1.getD
          k dy
        = (p.run dx dy perms n).Y.getD
            (((((n : Int) - 1) % p.batches_per_epoch) * Bsz).toNat + k) dy) ∧
    p.batches_per_epoch = Int.fdiv (X.length : Int) Bsz ∧
    (0 < Bsz → p.batches_per_epoch * Bsz ≤ (X.length : Int)) ∧
    (List.range p.batches_per_epoch.toNat).flatMap
        (fun i => (List.range Bsz.toNat).map (fun j => i * Bsz.toNat + j))
      = List.range (p.batches_per_epoch.toNat * Bsz.toNat) := by
  have hp : p = ⟨X, Yl, lengths, Bsz, -1, Int.fdiv (X.length : Int) Bsz⟩ := by
    rw [MinibatchDataProvider.init] at hinit
    split at hinit
    · cases hinit
    · exact (Option.some.inj hinit).symm
  obtain ⟨m, rfl⟩ : ∃ m, n = m + 1 :=
    ⟨n - 1, (Nat.succ_pred_eq_of_pos hn).symm⟩
  have hbi : p.batch_index = -1 := by rw [hp]
  have hidx := run_batch_index dx dy p perms hbi (m + 1) (Nat.le_add_left 1 m)
  have hprep := prepare_spec dx dy (p.run dx dy perms m) (perms m)
  have hi : ((p.run dx dy perms m).batch_index + 1)
      % (p.run dx dy perms m).batches_per_epoch
      = (((m + 1 : Nat) : Int) - 1) % p.batches_per_epoch := by
    rw [← hidx, run_succ dx dy p perms m]
    exact (prepare_spec dx dy (p.run dx dy perms m) (perms m)).1.symm
  have hbs1 : (p.run dx dy perms (m + 1)).batch_size = Bsz := by
    rw [(run_preserve dx dy p perms (m + 1)).2, hp]
  simp only [Nat.add_sub_cancel]
  refine ⟨hidx, ?_, ?_, ?_, ?_, ?_, ?_, ?_⟩
  · intro hc
    rw [run_succ]
    exact hprep.2.2.2.1 (hi.trans hc)
  · intro hc
    rw [run_succ]
    exact hprep.2.2.2.2 (fun h0 => hc (hi.symm.trans h0))
  · rw [next_batch_slices_X, ← run_succ dx dy p perms m, hbs1,
      pySlice_getD _ _ _ _ _ hk, hidx]
  · rw [next_batch_slices_Y, ← run_succ dx dy p perms m, hbs1,
      pySlice_getD _ _ _ _ _ hk, hidx]
  · rw [hp]
  · intro hB
    rw [hp]
    show Int.fdiv (X.length : Int) Bsz * Bsz ≤ (X.length : Int)
    rw [Int.fdiv_eq_ediv _ hB.le]
    exact Int.ediv_mul_le _ hB.ne'
  · exact range_flatMap_range _ _

/-- Witness for C9: dataset of 4 rows, batch size 2, third call (which
wraps and reshuffles). -/
theorem minibatch_epoch_schedule_witness :
    let p : MinibatchDataProvider Nat Nat :=
      ⟨[10, 20, 30, 40], [1, 2, 3, 4], [1, 1, 1, 1], 2, -1, 2⟩
    let perms : Nat → List Nat := fun _ => [3, 2, 1, 0]
    (p.run 0 0 perms 3).batch_index
        = ((3 : Int) - 1) % p.batches_per_epoch ∧
    (((3 : Int) - 1) % p.batches_per_epoch = 0 →
      (p.run 0 0 perms 3).X
          = applyPerm 0 (perms 2) ((p.run 0 0 perms 2).X) ∧
      (p.run 0 0 perms 3).Y
          = applyPerm 0 (perms 2) ((p.run 0 0 perms 2).Y) ∧
      (p.run 0 0 perms 3).lengths
          = applyPerm 0 (perms 2) ((p.run 0 0 perms 2).lengths)) ∧
    (((3 : Int) - 1) % p.batches_per_epoch ≠ 0 →
      (p.run 0 0 perms 3).X = (p.run 0 0 perms 2).X ∧
      (p.run 0 0 perms 3).Y = (p.run 0 0 perms 2).Y ∧
      (p.run 0 0 perms 3).lengths = (p.run 0 0 perms 2).lengths) ∧
    (((p.run 0 0 perms 2).next_batch 0 0 (perms 2)).2.1.getD 1 0
        = (p.run 0 0 perms 3).X.getD
            (((((3 : Int) - 1) % p.batches_per_epoch) * 2).toNat + 1) 0) ∧
    (((p.run 0 0 perms 2).next_batch 0 0 (perms 2)).2.2.1.getD 1 0
        = (p.run 0 0 perms 3).Y.getD
            (((((3 : Int) - 1) % p.batches_per_epoch) * 2).toNat + 1) 0) ∧
    p.batches_per_epoch = Int.fdiv ((4 : Nat) : Int) 2 ∧
    (0 < (2 : Int) → p.batches_per_epoch * 2 ≤ ((4 : Nat) : Int)) ∧
    (List.range p.batches_per_epoch.toNat).flatMap
        (fun i => (List.range (2 : Int).toNat).map
          (fun j => i * (2 : Int).toNat + j))
      = List.range (p.batches_per_epoch.toNat * (2 : Int).toNat) :=
  minibatch_epoch_schedule 0 0 [10, 20, 30, 40] [1, 2, 3, 4] [1, 1, 1, 1]
    2 ⟨[10, 20, 30, 40], [1, 2, 3, 4], [1, 1, 1, 1], 2, -1, 2⟩
    (fun _ => [3, 2, 1, 0]) 3 1 (by decide) (by decide) (by decide)

/-! ### C5: broadcast concatenates verbatim copies -/

theorem flatten_replicate_length {α : Type} (t : Nat) (ch : List α) :
    (List.replicate t ch).flatten.length = t * ch.length := by
  induction t with
  | zero => simp [List.replicate]
  | succ tt ih =>
    rw [List.replicate_succ, List.flatten_cons, List.length_append, ih,
      Nat.succ_mul, Nat.add_comm]

theorem flatten_replicate_getD {α : Type} (t : Nat) (ch : List α) (d : α) :
    ∀ j, j < t * ch.length →
      (List.replicate t ch).flatten.getD j d = ch.getD (j % ch.length) d := by
  induction t with
  | zero => intro j h; simp at h
  | succ tt ih =>
    intro j hj
    rw [List.replicate_succ, List.flatten_cons]
    by_cases hc : j < ch.length
    · rw [List.getD_append _ _ _ _ hc, Nat.mod_eq_of_lt hc]
    · push_neg at hc
      rw [List.getD_append_right _ _ _ _ hc, Nat.mod_eq_sub_mod hc]
      apply ih
      rw [Nat.succ_mul] at hj
      omega

theorem repeatChunks_length {α : Type} (c times : Nat) :
    ∀ (m : Nat) (l : List α), l.length = m * c →
      (repeatChunks c times m l).length = m * (times * c) := by
  intro m
  induction m with
  | zero => intro l _; simp [repeatChunks]
  | succ mm ih =>
    intro l hl
    have hcle : c ≤ l.length := by
      rw [hl, Nat.succ_mul]; omega
    rw [repeatChunks, List.length_append, flatten_replicate_length,
      List.length_take, Nat.min_eq_left hcle,
      ih (l.drop c) (by rw [List.length_drop, hl, Nat.succ_mul,
        Nat.add_sub_cancel]),
      Nat.succ_mul]
    ring

theorem repeatChunks_getD {α : Type} (c times : Nat) (d : α) :
    ∀ (m : Nat) (l : List α) (j : Nat), l.length = m * c →
      j < m * (times * c) →
      (repeatChunks c times m l).getD j d
        = l.getD ((j / (times * c)) * c + (j % (times * c)) % c) d := by
  intro m
  induction m with
  | zero => intro l j _ hj; simp at hj
  | succ mm ih =>
    intro l j hl hj
    have hcle : c ≤ l.length := by
      rw [hl, Nat.succ_mul]; omega
    have hblock : ((List.replicate times (l.take c)).flatten).length
        = times * c := by
      rw [flatten_replicate_length, List.length_take, Nat.min_eq_left hcle]
    rw [repeatChunks]
    by_cases hc : j < times * c
    · have hcpos : 0 < c := by
        rcases Nat.eq_zero_or_pos c with h0 | h0
        · rw [h0, Nat.mul_zero] at hc; cases hc.not_le (Nat.zero_le _)
        · exact h0
      rw [List.getD_append _ _ _ _ (by rw [hblock]; exact hc),
        flatten_replicate_getD times (l.take c) d j
          (by rw [List.length_take, Nat.min_eq_left hcle]; exact hc),
        List.length_take, Nat.min_eq_left hcle,
        Nat.div_eq_of_lt hc, Nat.mod_eq_of_lt hc, Nat.zero_mul,
        Nat.zero_add, List.getD_eq_getElem?_getD,
        List.getElem?_take_of_lt (Nat.mod_lt _ hcpos),
        ← List.getD_eq_getElem?_getD]
    · push_neg at hc
      have htcpos : 0 < times * c := by
        rcases Nat.eq_zero_or_pos (times * c) with h0 | h0
        · rw [h0, Nat.mul_zero] at hj; cases hj
        · exact h0
      have hdroplen : (l.drop c).length = mm * c := by
        rw [List.length_drop, hl, Nat.succ_mul, Nat.add_sub_cancel]
      have hbound : j - times * c < mm * (times * c) := by
        rw [Nat.succ_mul] at hj; omega
      rw [List.getD_append_right _ _ _ _ (by rw [hblock]; exact hc), hblock,
        ih (l.drop c) (j - times * c) hdroplen hbound,
        List.getD_eq_getElem?_getD, List.getElem?_drop,
        ← List.getD_eq_getElem?_getD,
        Nat.div_eq_sub_div htcpos hc, Nat.mod_eq_sub_mod hc]
      congr 1
      ring

theorem npConcatSelf_eq {α : Type} (dflt : α) (k times : Nat)
    (X : NDArray α) :
    npConcatSelf dflt k times X =
      ⟨X.shape.set k (times * X.shape.getD k 0),
        (List.range (prodl (X.shape.set k
            (times * X.shape.getD k 0)))).map
          (fun j => X.data.getD (ravel X.shape
            ((unravel (X.shape.set k (times * X.shape.getD k 0)) j).set k
              ((unravel (X.shape.set k (times * X.shape.getD k 0)) j).getD
                  k 0
                % X.shape.getD k 0))) dflt)⟩ := rfl

/-- Concatenating `times` identical copies along the axis at position
`pre.length` lays the flat data out as every `sk * prodl post`-sized chunk
written `times` times in a row. -/
theorem npConcatSelf_data {α : Type} (dflt : α) (k times : Nat)
    (X : NDArray α) (pre post : List Nat) (sk : Nat)
    (hshape : X.shape = pre ++ sk :: post) (hk : k = pre.length)
    (hlen : X.data.length = prodl X.shape) :
    (npConcatSelf dflt k times X).data
      = repeatChunks (sk * prodl post) times (prodl pre) X.data := by
  subst hk
  have hsk : X.shape.getD pre.length 0 = sk := by
    rw [hshape, List.getD_append_right _ _ _ _ (Nat.le_refl pre.length),
      Nat.sub_self]
    rfl
  have hs' : X.shape.set pre.length (times * sk)
      = pre ++ (times * sk) :: post := by
    rw [hshape]
    simp [List.set_append]
  have hXlen' : X.data.length = prodl pre * (sk * prodl post) := by
    rw [hlen, hshape, prodl_append, prodl_cons]
  have hprodS' : prodl (pre ++ (times * sk) :: post)
      = prodl pre * (times * (sk * prodl post)) := by
    rw [prodl_append, prodl_cons]; ring
  rw [npConcatSelf_eq]
  dsimp only
  rw [hsk, hs']
  apply List.ext_getElem
  · rw [List.length_map, List.length_range, hprodS',
      repeatChunks_length (sk * prodl post) times (prodl pre) X.data hXlen']
  · intro j hj1 hj2
    have hjlt : j < prodl pre * (times * (sk * prodl post)) := by
      rw [← hprodS']
      simpa using hj1
    have hQpos : 0 < times * sk * prodl post := by
      rcases Nat.eq_zero_or_pos (times * sk * prodl post) with h0 | h0
      · rw [show prodl pre * (times * (sk * prodl post))
            = prodl pre * (times * sk * prodl post) by ring, h0,
          Nat.mul_zero] at hjlt
        cases hjlt
      · exact h0
    have hPpos : 0 < prodl post := by
      rcases Nat.eq_zero_or_pos (prodl post) with h0 | h0
      · rw [h0, Nat.mul_zero] at hQpos; cases hQpos
      · exact h0
    have hjQ : j < prodl pre * prodl ((times * sk) :: post) := by
      rw [prodl_cons]
      calc j < prodl pre * (times * (sk * prodl post)) := hjlt
        _ = prodl pre * (times * sk * prodl post) := by ring
    rw [List.getElem_map, List.getElem_range,
      ← List.getD_eq_getElem _ dflt hj2,
      repeatChunks_getD (sk * prodl post) times dflt (prodl pre) X.data j
        hXlen' hjlt]
    congr 1
    have hu : unravel (pre ++ (times * sk) :: post) j
        = unravel pre (j / prodl ((times * sk) :: post))
          ++ unravel ((times * sk) :: post)
              (j % prodl ((times * sk) :: post)) :=
      unravel_append ((times * sk) :: post)
        (by rw [hprodS']; exact hjlt)
    have hun : unravel ((times * sk) :: post)
          (j % prodl ((times * sk) :: post))
        = (j % prodl ((times * sk) :: post)) / prodl post
          :: unravel post
              ((j % prodl ((times * sk) :: post)) % prodl post) := rfl
    have hlen1 : (unravel pre
        (j / prodl ((times * sk) :: post))).length = pre.length :=
      unravel_length _ _
    have hQeq : prodl ((times * sk) :: post)
        = times * (sk * prodl post) := by rw [prodl_cons]; ring
    have hdiv : j / prodl ((times * sk) :: post) < prodl pre := by
      rw [hQeq]
      refine (Nat.div_lt_iff_lt_mul ?_).mpr ?_
      · rw [show times * (sk * prodl post) = times * sk * prodl post
          by ring]
        exact hQpos
      · exact hjlt
    have hmod : (j % prodl ((times * sk) :: post)) % prodl post
        < prodl post := Nat.mod_lt _ hPpos
    rw [hu, hun]
    rw [List.getD_append_right _ _ _ _ hlen1.le, hlen1, Nat.sub_self,
      List.getD_cons_zero]
    have hset : (unravel pre (j / prodl ((times * sk) :: post))
          ++ (j % prodl ((times * sk) :: post)) / prodl post
            :: unravel post
                ((j % prodl ((times * sk) :: post)) % prodl post)).set
          pre.length
          ((j % prodl ((times * sk) :: post)) / prodl post % sk)
        = unravel pre (j / prodl ((times * sk) :: post))
          ++ ((j % prodl ((times * sk) :: post)) / prodl post % sk)
            :: unravel post
                ((j % prodl ((times * sk) :: post)) % prodl post) := by
      rw [List.set_append, if_neg (by rw [hlen1]; exact Nat.lt_irrefl _),
        hlen1, Nat.sub_self, List.set_cons_zero]
    rw [hset, hshape, ravel_append (sk :: post) _ hlen1,
      ravel_unravel hdiv]
    have hravelcons : ravel (sk :: post)
        ((j % prodl ((times * sk) :: post)) / prodl post % sk
          :: unravel post
              ((j % prodl ((times * sk) :: post)) % prodl post))
        = (j % prodl ((times * sk) :: post)) / prodl post % sk
            * prodl post
          + (j % prodl ((times * sk) :: post)) % prodl post := by
      show _ * prodl post + ravel post (unravel post _) = _
      rw [ravel_unravel hmod]
    rw [hravelcons, prodl_cons,
      show times * (sk * prodl post) = times * sk * prodl post by ring,
      prodl_cons]
    have hmm2 : (j % (times * sk * prodl post)) % (sk * prodl post)
        = (j % (times * sk * prodl post)) / prodl post % sk * prodl post
          + (j % (times * sk * prodl post)) % prodl post := by
      rw [Nat.mul_comm sk (prodl post), Nat.mod_mul]
      ring
    rw [hmm2]

theorem map_mul_rep_eq_set (A : List Label) (g : Label → Nat) (a : Label)
    (n : Nat) (hA : A.Nodup) (ha : a ∈ A) :
    A.map (fun ax => g ax * odGetD [(a, n)] ax 1)
      = (A.map g).set (A.indexOf a) (g a * n) := by
  apply List.ext_getElem
  · simp
  · intro i h1 h2
    have hiA : i < A.length := by simpa using h1
    rw [List.getElem_map, List.getElem_set]
    by_cases hik : A.indexOf a = i
    · rw [if_pos hik]
      have hi : A[i] = a := by
        subst hik
        exact List.getElem_indexOf (List.indexOf_lt_length.mpr ha)
      rw [hi]
      simp [odGetD]
    · rw [if_neg hik, List.getElem_map]
      have hne : A[i] ≠ a := by
        intro h
        apply hik
        have hidx := List.indexOf_getElem hA i hiA
        rw [h] at hidx
        exact hidx
      simp only [odGetD]
      rw [if_neg (by simpa using fun h => hne h.symm), Nat.mul_one]

/-- C5: broadcasting a single axis `a` by `n` succeeds, multiplies exactly
that axis's extent by `n` (all other extents unchanged), and lays the
array data out as `n` verbatim copies of each chunk along `a`'s folded
position. -/
theorem broadcast_replicates_axis (S : Space) {α : Type} (dflt : α)
    (X : NDArray α) (a : Label) (n : Nat) (hWF : SpaceWF S)
    (ha : a ∈ S.foldedAxes) (_hn : 1 ≤ n)
    (hXlen : X.data.length = S.size) :
    ∃ Y T, S.broadcast dflt X [(a, n)] = some (Y, T) ∧
      odGet? T.extent a = some (odGetD S.extent a 1 * n) ∧
      (∀ b ∈ S.foldedAxes, b ≠ a →
        odGet? T.extent b = odGet? S.extent b) ∧
      Y.data = repeatChunks
        (prodl (S.foldedShape.drop (S.foldedAxes.indexOf a))) n
        (prodl (S.foldedShape.take (S.foldedAxes.indexOf a))) X.data := by
  have hg := odGet?_of_WF S hWF
  have hkeysnd : ((S.foldedAxes.map (fun ax =>
      (ax, odGetD S.extent ax 1 * odGetD [(a, n)] ax 1))).map
        Prod.fst).Nodup := by
    rw [map_fst_map_pair]; exact hWF.2
  have hpairs : odOfList (S.foldedAxes.map (fun ax =>
      (ax, odGetD S.extent ax 1 * odGetD [(a, n)] ax 1)))
      = S.foldedAxes.map (fun ax =>
        (ax, odGetD S.extent ax 1 * odGetD [(a, n)] ax 1)) :=
    odOfList_nodup _ hkeysnd
  have hfoldlen : S.foldedShape.length = S.foldedAxes.length := by
    rw [Space.foldedShape, List.length_map, ← hWF.1, List.length_map]
  have hklt : S.foldedAxes.indexOf a < S.foldedAxes.length :=
    List.indexOf_lt_length.mpr ha
  have hklt' : S.foldedAxes.indexOf a < S.foldedShape.length := by
    rw [hfoldlen]; exact hklt
  have hvals : S.foldedAxes.map (fun ax => odGetD S.extent ax 1)
      = S.foldedShape :=
    values_eq_map_of_keys S.extent S.foldedAxes 1 hWF.1 hWF.2
  have hgetk : S.foldedShape.getD (S.foldedAxes.indexOf a) 0
      = odGetD S.extent a 1 := by
    rw [← hvals, List.getD_eq_getElem _ _ (by simpa using hklt),
      List.getElem_map, List.getElem_indexOf hklt]
  have hsplit : S.foldedShape
      = S.foldedShape.take (S.foldedAxes.indexOf a)
        ++ S.foldedShape.getD (S.foldedAxes.indexOf a) 0
          :: S.foldedShape.drop (S.foldedAxes.indexOf a + 1) := by
    rw [List.getD_eq_getElem _ _ hklt']
    conv_lhs => rw [← List.take_append_drop (S.foldedAxes.indexOf a)
      S.foldedShape]
    rw [List.drop_eq_getElem_cons hklt']
  have htakelen : S.foldedAxes.indexOf a
      = (S.foldedShape.take (S.foldedAxes.indexOf a)).length := by
    rw [List.length_take, Nat.min_eq_left hklt'.le]
  have hX1len : X.data.length = prodl S.foldedShape := hXlen
  have hdata := npConcatSelf_data dflt (S.foldedAxes.indexOf a) n
    (npReshape X S.foldedShape)
    (S.foldedShape.take (S.foldedAxes.indexOf a))
    (S.foldedShape.drop (S.foldedAxes.indexOf a + 1))
    (S.foldedShape.getD (S.foldedAxes.indexOf a) 0)
    hsplit htakelen hX1len
  have hprodDrop : prodl (S.foldedShape.drop (S.foldedAxes.indexOf a))
      = S.foldedShape.getD (S.foldedAxes.indexOf a) 0
        * prodl (S.foldedShape.drop (S.foldedAxes.indexOf a + 1)) := by
    rw [List.drop_eq_getElem_cons hklt', prodl_cons,
      List.getD_eq_getElem _ _ hklt']
  have hX2size : (npConcatSelf dflt (S.foldedAxes.indexOf a) n
      (npReshape X S.foldedShape)).size
      = prodl ((S.foldedAxes.map (fun ax =>
          (ax, odGetD S.extent ax 1 * odGetD [(a, n)] ax 1))).map
            Prod.snd) := by
    rw [map_snd_map_pair, map_mul_rep_eq_set _ _ _ _ hWF.2 ha, hvals,
      NDArray.size, npConcatSelf_eq]
    dsimp only [npReshape]
    rw [List.length_map, List.length_range, hgetk,
      show n * odGetD S.extent a 1 = odGetD S.extent a 1 * n
        from Nat.mul_comm n _]
  refine ⟨npReshape (npConcatSelf dflt (S.foldedAxes.indexOf a) n
      (npReshape X S.foldedShape))
      (Space.shape ⟨S.axes, odOfList (S.foldedAxes.map (fun ax =>
        (ax, odGetD S.extent ax 1 * odGetD [(a, n)] ax 1)))⟩),
    ⟨S.axes, odOfList (S.foldedAxes.map (fun ax =>
      (ax, odGetD S.extent ax 1 * odGetD [(a, n)] ax 1)))⟩, ?_, ?_, ?_, ?_⟩
  · rw [Space.broadcast, mapM_broadcast_extent S.foldedAxes S.extent
      (fun ax => odGetD S.extent ax 1) (fun ax => odGetD [(a, n)] ax 1) hg]
    have hall : ([(a, n)] : List (Label × Nat)).all
        (fun p => decide (p.1 ∈ S.foldedAxes)) = true := by simp [ha]
    have hcond : (npConcatSelf dflt (S.foldedAxes.indexOf a) n
        (npReshape X S.foldedShape)).size
        = (Space.mk S.axes (odOfList (S.foldedAxes.map (fun ax =>
            (ax, odGetD S.extent ax 1 * odGetD [(a, n)] ax 1))))).size := by
      rw [Space.size]
      dsimp only
      rw [hpairs]
      exact hX2size
    dsimp only
    simp only [hall, if_true, List.foldl_cons, List.foldl_nil]
    rw [if_pos hcond]
  · rw [hpairs, odGet?_map_self _ _ a ha]
    simp [odGetD]
  · intro b hb hba
    rw [hpairs, odGet?_map_self _ _ b hb, hg b hb]
    have : odGetD [(a, n)] b 1 = 1 := by
      simp [odGetD, Ne.symm hba]
    rw [this, Nat.mul_one]
  · dsimp only [npReshape] at hdata ⊢
    rw [hdata, hprodDrop]

/-- Witness for C5: broadcasting `b` by 2 on a `{b: 2, w: 3}` space. -/
theorem broadcast_replicates_axis_witness :
    ∃ Y T, Space.broadcast ⟨[["b"], ["w"]], [("b", 2), ("w", 3)]⟩ (99 : Nat)
        ⟨[2, 3], [0, 1, 2, 3, 4, 5]⟩ [("b", 2)] = some (Y, T) ∧
      odGet? T.extent "b"
        = some (odGetD [("b", 2), ("w", 3)] "b" 1 * 2) ∧
      (∀ b ∈ (Space.mk [["b"], ["w"]] [("b", 2), ("w", 3)]).foldedAxes,
        b ≠ "b" → odGet? T.extent b = odGet? [("b", 2), ("w", 3)] b) ∧
      Y.data = repeatChunks
        (prodl ((Space.mk [["b"], ["w"]]
            [("b", 2), ("w", 3)]).foldedShape.drop
          ((Space.mk [["b"], ["w"]]
            [("b", 2), ("w", 3)]).foldedAxes.indexOf "b"))) 2
        (prodl ((Space.mk [["b"], ["w"]]
            [("b", 2), ("w", 3)]).foldedShape.take
          ((Space.mk [["b"], ["w"]]
            [("b", 2), ("w", 3)]).foldedAxes.indexOf "b")))
        [0, 1, 2, 3, 4, 5] :=
  broadcast_replicates_axis ⟨[["b"], ["w"]], [("b", 2), ("w", 3)]⟩
    (99 : Nat) ⟨[2, 3], [0, 1, 2, 3, 4, 5]⟩ "b" 2 (by decide) (by decide)
    (by decide) (by decide)

/-! ### C1: `transform` round trips -/

theorem nodup_map_indexOf (A B : List Label) (hB : B.Nodup)
    (hmem : ∀ x ∈ B, x ∈ A) :
    (B.map (fun d => A.indexOf d)).Nodup := by
  refine List.Nodup.map_on ?_ hB
  intro x hx y hy hxy
  have h1 : A.indexOf x < A.length := List.indexOf_lt_length.mpr (hmem x hx)
  have h2 : A.indexOf y < A.length := List.indexOf_lt_length.mpr (hmem y hy)
  have e1 : A.getD (A.indexOf x) "" = x := by
    rw [List.getD_eq_getElem _ _ h1]
    exact List.getElem_indexOf h1
  have e2 : A.getD (A.indexOf y) "" = y := by
    rw [List.getD_eq_getElem _ _ h2]
    exact List.getElem_indexOf h2
  rw [← e1, ← e2, hxy]

theorem indexOf_map_indexOf (A B : List Label) (hA : A.Nodup) (hB : B.Nodup)
    (hmem : ∀ x, x ∈ A ↔ x ∈ B) (k : Nat) (hk : k < A.length) :
    (B.map (fun d => A.indexOf d)).indexOf k = B.indexOf (A.getD k "") := by
  have hAk : A.getD k "" = A[k] := List.getD_eq_getElem _ _ hk
  have hmemB : A[k] ∈ B := (hmem _).mp (List.getElem_mem hk)
  have hj0 : B.indexOf A[k] < B.length := List.indexOf_lt_length.mpr hmemB
  have hp : (B.map (fun d => A.indexOf d)).Nodup :=
    nodup_map_indexOf A B hB (fun x hx => (hmem x).mpr hx)
  have hj0p : B.indexOf A[k] < (B.map (fun d => A.indexOf d)).length := by
    simpa using hj0
  have hval : (B.map (fun d => A.indexOf d))[B.indexOf A[k]] = k := by
    rw [List.getElem_map, List.getElem_indexOf hj0,
      List.indexOf_getElem hA k hk]
  calc (B.map (fun d => A.indexOf d)).indexOf k
      = (B.map (fun d => A.indexOf d)).indexOf
          ((B.map (fun d => A.indexOf d))[B.indexOf A[k]]) := by rw [hval]
    _ = B.indexOf A[k] := List.indexOf_getElem hp _ hj0p
    _ = B.indexOf (A.getD k "") := by rw [hAk]

theorem perm_map_shape (A B : List Label) (ext : Label → Nat)
    (hsub : ∀ x ∈ B, x ∈ A) :
    (B.map (fun d => A.indexOf d)).map (fun k => (A.map ext).getD k 0)
      = B.map ext := by
  apply List.ext_getElem
  · simp
  · intro j h1 h2
    have hjB : j < B.length := by simpa using h2
    rw [List.getElem_map, List.getElem_map, List.getElem_map]
    have hidx : A.indexOf B[j] < A.length :=
      List.indexOf_lt_length.mpr (hsub _ (List.getElem_mem hjB))
    rw [List.getD_eq_getElem _ _ (by simpa using hidx), List.getElem_map,
      List.getElem_indexOf hidx]

theorem transposeIndex_roundtrip (A B : List Label) (ext : Label → Nat)
    (hA : A.Nodup) (hB : B.Nodup) (hmem : ∀ x, x ∈ A ↔ x ∈ B)
    (i : Nat) (hi : i < prodl (A.map ext)) :
    transposeIndex (A.map (fun d => B.indexOf d)) (B.map ext) (A.map ext) i
        < prodl (B.map ext) ∧
    transposeIndex (B.map (fun d => A.indexOf d)) (A.map ext) (B.map ext)
        (transposeIndex (A.map (fun d => B.indexOf d)) (B.map ext)
          (A.map ext) i) = i := by
  have hsub : ∀ x ∈ A, x ∈ B := fun x hx => (hmem x).mp hx
  have hsup : ∀ x ∈ B, x ∈ A := fun x hx => (hmem x).mpr hx
  have hufa : List.Forall₂ (· < ·) (unravel (A.map ext) i) (A.map ext) :=
    unravel_forall₂ hi
  have hulen : (unravel (A.map ext) i).length = A.length := by
    rw [unravel_length, List.length_map]
  have hv : List.Forall₂ (· < ·)
      ((List.range (B.map ext).length).map
        (fun t => (unravel (A.map ext) i).getD
          ((A.map (fun d => B.indexOf d)).indexOf t) 0))
      (B.map ext) := by
    rw [List.forall₂_iff_get]
    refine ⟨by simp, ?_⟩
    intro t h1 h2
    have htB : t < B.length := by simpa using h2
    have hBt : B.getD t "" = B[t] := List.getD_eq_getElem _ _ htB
    have hu : A.indexOf B[t] < A.length :=
      List.indexOf_lt_length.mpr (hsup _ (List.getElem_mem htB))
    have hu' : A.indexOf B[t] < (unravel (A.map ext) i).length := by
      rw [hulen]; exact hu
    have hidx : (A.map (fun d => B.indexOf d)).indexOf t
        = A.indexOf B[t] := by
      rw [indexOf_map_indexOf B A hB hA (fun x => (hmem x).symm) t htB, hBt]
    rw [List.get_eq_getElem, List.get_eq_getElem, List.getElem_map,
      List.getElem_range, hidx, List.getD_eq_getElem _ _ hu']
    have hfa := hufa.get hu' (by simpa using hu)
    simp only [List.get_eq_getElem, List.getElem_map] at hfa ⊢
    rw [List.getElem_indexOf hu] at hfa
    exact hfa
  refine ⟨ravel_lt hv, ?_⟩
  have hinner : transposeIndex (A.map (fun d => B.indexOf d)) (B.map ext)
      (A.map ext) i
      = ravel (B.map ext) ((List.range (B.map ext).length).map
        (fun t => (unravel (A.map ext) i).getD
          ((A.map (fun d => B.indexOf d)).indexOf t) 0)) := rfl
  have houter : transposeIndex (B.map (fun d => A.indexOf d)) (A.map ext)
      (B.map ext) (transposeIndex (A.map (fun d => B.indexOf d))
        (B.map ext) (A.map ext) i)
      = ravel (A.map ext) ((List.range (A.map ext).length).map
        (fun d => (unravel (B.map ext)
          (transposeIndex (A.map (fun d => B.indexOf d)) (B.map ext)
            (A.map ext) i)).getD
          ((B.map (fun d => A.indexOf d)).indexOf d) 0)) := rfl
  rw [houter, hinner, unravel_ravel hv]
  have hw : (List.range (A.map ext).length).map
      (fun d => ((List.range (B.map ext).length).map
        (fun t => (unravel (A.map ext) i).getD
          ((A.map (fun d => B.indexOf d)).indexOf t) 0)).getD
        ((B.map (fun d => A.indexOf d)).indexOf d) 0)
      = unravel (A.map ext) i := by
    apply List.ext_getElem
    · rw [List.length_map, List.length_range, unravel_length,
        List.length_map]
    · intro d h1 h2
      have hdA : d < A.length := by simpa using h1
      rw [List.getElem_map, List.getElem_range]
      have hu2 : B.indexOf A[d] < B.length :=
        List.indexOf_lt_length.mpr (hsub _ (List.getElem_mem hdA))
      have hpidx : (B.map (fun d => A.indexOf d)).indexOf d
          = B.indexOf A[d] := by
        rw [indexOf_map_indexOf A B hA hB hmem d hdA,
          List.getD_eq_getElem _ _ hdA]
      rw [hpidx, getD_map_range _ _ _
        (show B.indexOf A[d] < (B.map ext).length by simpa using hu2)]
      have hqidx : (A.map (fun d => B.indexOf d)).indexOf (B.indexOf A[d])
          = d := by
        rw [indexOf_map_indexOf B A hB hA (fun x => (hmem x).symm)
            (B.indexOf A[d]) hu2,
          List.getD_eq_getElem _ _ hu2, List.getElem_indexOf hu2,
          List.indexOf_getElem hA d hdA]
      rw [hqidx, List.getD_eq_getElem _ _ (by rw [hulen]; exact hdA)]
  rw [hw, ravel_unravel hi]

theorem npTranspose_eq {α : Type} (dflt : α) (p : List Nat) (X : NDArray α) :
    npTranspose dflt p X
      = ⟨p.map (fun k => X.shape.getD k 0),
        (List.range (prodl (p.map (fun k => X.shape.getD k 0)))).map
          (fun j => X.data.getD (transposeIndex p X.shape
            (p.map (fun k => X.shape.getD k 0)) j) dflt)⟩ := rfl

/-- Transposing into the axis order `B` and back into the axis order `A`
restores the array. -/
theorem npTranspose_roundtrip {α : Type} (dflt : α) (A B : List Label)
    (ext : Label → Nat) (hA : A.Nodup) (hB : B.Nodup)
    (hmem : ∀ x, x ∈ A ↔ x ∈ B) (data : List α)
    (hlen : data.length = prodl (A.map ext)) :
    npTranspose dflt (A.map (fun d => B.indexOf d))
      ⟨B.map ext, (npTranspose dflt (B.map (fun d => A.indexOf d))
        ⟨A.map ext, data⟩).data⟩ = ⟨A.map ext, data⟩ := by
  have hsub : ∀ x ∈ A, x ∈ B := fun x hx => (hmem x).mp hx
  have hsup : ∀ x ∈ B, x ∈ A := fun x hx => (hmem x).mpr hx
  have hshape1 : (B.map (fun d => A.indexOf d)).map
      (fun k => (A.map ext).getD k 0) = B.map ext :=
    perm_map_shape A B ext hsup
  have hshape2 : (A.map (fun d => B.indexOf d)).map
      (fun k => (B.map ext).getD k 0) = A.map ext :=
    perm_map_shape B A ext hsub
  rw [npTranspose_eq dflt (B.map (fun d => A.indexOf d)) ⟨A.map ext, data⟩]
  dsimp only
  rw [hshape1, npTranspose_eq]
  dsimp only
  rw [hshape2]
  refine congrArg (NDArray.mk (A.map ext)) ?_
  have hpt : ∀ j ∈ List.range (prodl (A.map ext)),
      ((List.range (prodl (B.map ext))).map
        (fun j => data.getD (transposeIndex (B.map (fun d => A.indexOf d))
          (A.map ext) (B.map ext) j) dflt)).getD
        (transposeIndex (A.map (fun d => B.indexOf d)) (B.map ext)
          (A.map ext) j) dflt
      = data.getD j dflt := by
    intro j hj
    have hjlt : j < prodl (A.map ext) := List.mem_range.mp hj
    obtain ⟨hlt, heq⟩ := transposeIndex_roundtrip A B ext hA hB hmem j hjlt
    rw [getD_map_range _ _ _ hlt, heq]
  calc (List.range (prodl (A.map ext))).map
        (fun j => ((List.range (prodl (B.map ext))).map
          (fun j => data.getD (transposeIndex (B.map (fun d => A.indexOf d))
            (A.map ext) (B.map ext) j) dflt)).getD
          (transposeIndex (A.map (fun d => B.indexOf d)) (B.map ext)
            (A.map ext) j) dflt)
      = (List.range (prodl (A.map ext))).map (fun j => data.getD j dflt) :=
        List.map_congr_left hpt
    _ = data := by rw [← hlen, map_getD_range]

/-- C1 (amended): for a well-formed space and a target arrangement with
the same leaf-label set (any fold/unfold/permutation), `transform`
followed by `transform` back to the original axes returns the original
array and the original space. -/
theorem transform_roundtrip (S : Space) (new_axes : List (List Label))
    {α : Type} (dflt : α) (X : NDArray α)
    (hWF : SpaceWF S) (hndB : (foldAxes new_axes).Nodup)
    (hmem : ∀ x, x ∈ S.foldedAxes ↔ x ∈ foldAxes new_axes)
    (hXshape : X.shape = S.shape) (hXlen : X.data.length = S.size) :
    ∃ Y T, S.transform dflt X new_axes = some (Y, T) ∧
      T.transform dflt Y S.axes = some (X, S) := by
  have hsub : ∀ a ∈ S.foldedAxes, a ∈ foldAxes new_axes :=
    fun a ha => (hmem a).mp ha
  have hsup : ∀ b ∈ foldAxes new_axes, b ∈ S.foldedAxes :=
    fun b hb => (hmem b).mpr hb
  have hexpF : S.expandFor (foldAxes new_axes) = S :=
    expandFor_of_equal _ _ hsub hsup
  have hvals : S.foldedAxes.map (fun l => odGetD S.extent l 1)
      = S.foldedShape :=
    values_eq_map_of_keys S.extent S.foldedAxes 1 hWF.1 hWF.2
  have hlen' : X.data.length
      = prodl (S.foldedAxes.map (fun l => odGetD S.extent l 1)) := by
    rw [hvals]; exact hXlen
  have hTex : odOfList ((foldAxes new_axes).map
      (fun ax => (ax, odGetD S.extent ax 1)))
      = (foldAxes new_axes).map (fun ax => (ax, odGetD S.extent ax 1)) :=
    odOfList_nodup _ (by rw [map_fst_map_pair]; exact hndB)
  refine ⟨_, _, transform_eq_some_of_subset S dflt X new_axes hsub, ?_⟩
  have hTsub : ∀ x ∈ (Space.mk new_axes (odOfList ((foldAxes new_axes).map
      (fun ax => (ax, odGetD S.extent ax 1))))).foldedAxes,
      x ∈ foldAxes S.axes := hsup
  have hexpT : (Space.mk new_axes (odOfList ((foldAxes new_axes).map
      (fun ax => (ax, odGetD S.extent ax 1))))).expandFor
      (foldAxes S.axes)
      = Space.mk new_axes (odOfList ((foldAxes new_axes).map
        (fun ax => (ax, odGetD S.extent ax 1)))) :=
    expandFor_of_equal _ _ hTsub (fun a ha => hsub a ha)
  rw [transform_eq_some_of_subset _ dflt _ S.axes hTsub]
  dsimp only
  rw [hexpF, hexpT]
  have hTfold : (Space.mk new_axes (odOfList ((foldAxes new_axes).map
      (fun ax => (ax, odGetD S.extent ax 1))))).foldedAxes
      = foldAxes new_axes := rfl
  rw [hTfold]
  have hTfs : (Space.mk new_axes (odOfList ((foldAxes new_axes).map
      (fun ax => (ax, odGetD S.extent ax 1))))).foldedShape
      = (foldAxes new_axes).map (fun l => odGetD S.extent l 1) := by
    show (odOfList ((foldAxes new_axes).map
      (fun ax => (ax, odGetD S.extent ax 1)))).map Prod.snd = _
    rw [hTex, map_snd_map_pair]
  have hcollapse : ∀ (Z : NDArray α) (s1 s2 : List Nat),
      npReshape (npReshape Z s1) s2 = npReshape Z s2 := fun _ _ _ => rfl
  rw [hTfs, hcollapse, ← hvals]
  have hmid : npReshape (npTranspose dflt ((foldAxes new_axes).map
      (fun d => S.foldedAxes.indexOf d)) (npReshape X
        (S.foldedAxes.map (fun l => odGetD S.extent l 1))))
      ((foldAxes new_axes).map (fun l => odGetD S.extent l 1))
      = ⟨(foldAxes new_axes).map (fun l => odGetD S.extent l 1),
        (npTranspose dflt ((foldAxes new_axes).map
          (fun d => S.foldedAxes.indexOf d))
          ⟨S.foldedAxes.map (fun l => odGetD S.extent l 1), X.data⟩).data⟩ :=
    rfl
  rw [hmid, show foldAxes S.axes = S.foldedAxes from rfl,
    npTranspose_roundtrip dflt S.foldedAxes (foldAxes new_axes)
      (fun l => odGetD S.extent l 1) hWF.2 hndB hmem X.data hlen',
    hTex]
  have hcg : S.foldedAxes.map (fun ax =>
      (ax, odGetD ((foldAxes new_axes).map
        (fun ax => (ax, odGetD S.extent ax 1))) ax 1))
      = S.foldedAxes.map (fun ax => (ax, odGetD S.extent ax 1)) :=
    List.map_congr_left (fun ax hax => by
      rw [odGetD_map_self _ _ ax 1 (hsub ax hax)])
  rw [hcg, extent_eq_map_of_keys S.extent S.foldedAxes 1 hWF.1 hWF.2,
    odOfList_nodup S.extent (by rw [hWF.1]; exact hWF.2),
    show Space.mk S.axes S.extent = S from rfl,
    show npReshape (⟨S.foldedAxes.map (fun l => odGetD S.extent l 1),
        X.data⟩ : NDArray α) S.shape
      = (⟨S.shape, X.data⟩ : NDArray α) from rfl,
    ← hXshape]

/-- C1 counterexample: the unrestricted claim fails for expanding
targets. Moving a one-axis space to a two-axis arrangement succeeds
(the missing leaf is added with extent 1), but transforming back to the
original axes then fails with IncompatibleAxes, because the added leaf
would have to be dropped. -/
theorem transform_roundtrip_cex :
    (Space.transform ⟨[["b"]], [("b", 2)]⟩ (99 : Nat) ⟨[2], [5, 6]⟩
      [["b"], ["w"]]).isSome = true ∧
    ((Space.transform ⟨[["b"]], [("b", 2)]⟩ (99 : Nat) ⟨[2], [5, 6]⟩
      [["b"], ["w"]]).bind
        (fun r => r.2.transform (99 : Nat) r.1 [["b"]])) = none :=
  ⟨by rfl, by rfl⟩

/-- C1 witness: the amended round-trip theorem instantiated at a
concrete two-axis space, permuting to the reversed axis order and
back. -/
theorem transform_roundtrip_witness :
    ∃ Y T, (Space.mk [["b"], ["w"]] [("b", 2), ("w", 3)]).transform
        (99 : Nat) ⟨[2, 3], [0, 1, 2, 3, 4, 5]⟩ [["w"], ["b"]]
        = some (Y, T) ∧
      T.transform (99 : Nat) Y [["b"], ["w"]]
        = some (⟨[2, 3], [0, 1, 2, 3, 4, 5]⟩,
          Space.mk [["b"], ["w"]] [("b", 2), ("w", 3)]) :=
  transform_roundtrip (Space.mk [["b"], ["w"]] [("b", 2), ("w", 3)])
    [["w"], ["b"]] (99 : Nat) ⟨[2, 3], [0, 1, 2, 3, 4, 5]⟩
    (by decide) (by decide)
    (by intro x; simp [Space.foldedAxes, foldAxes]; tauto)
    (by decide) (by decide)

end TxtNets
